import Mathlib

/-!
A shallow embedding of `src/quadtree/quadtree.py` (bmmeijers/quadtree):
a dynamic 2D point quadtree with bucketed leaves, insertion-triggered
splits, removal-triggered upward reduction, and rectangle range search.

Coordinates are modelled as rationals (`ℚ`): the Python code uses floats,
but every arithmetic operation it performs on coordinates (halving sizes
that start as powers of two, adding/subtracting halves) is exact in
binary floating point for the magnitudes the design intends, so `ℚ` is a
faithful model of the intended exact geometry.

Mutation is modelled by explicit state passing: each Python method that
mutates a node in place becomes a function returning the new node.
-/

namespace Quadtree

/-- A 2D point, compared by exact equality of both coordinates
(Python tuples of floats, compared with `==`). -/
structure Point where
  x : ℚ
  y : ℚ
deriving DecidableEq, Repr

/-- `QuadTreeNode`: center, size (= half-extents, the Python code stores
half-extents in `self.size`), bucket, leaf flag, and four child slots
indexed by quadrant (Python `self.child = [None] * 4`). -/
inductive QTNode : Type where
  | mk (center : Point) (size : Point) (bucket : List Point) (leaf : Bool)
      (c0 c1 c2 c3 : Option QTNode) : QTNode

namespace QTNode

def center : QTNode → Point
  | .mk ce _ _ _ _ _ _ _ => ce

def size : QTNode → Point
  | .mk _ sz _ _ _ _ _ _ => sz

def bucket : QTNode → List Point
  | .mk _ _ b _ _ _ _ _ => b

def leaf : QTNode → Bool
  | .mk _ _ _ l _ _ _ _ => l

/-- `node.child[q]` (out-of-range indices, which the source never uses,
give `none`). -/
def child : QTNode → Nat → Option QTNode
  | .mk _ _ _ _ k0 _ _ _, 0 => k0
  | .mk _ _ _ _ _ k1 _ _, 1 => k1
  | .mk _ _ _ _ _ _ k2 _, 2 => k2
  | .mk _ _ _ _ _ _ _ k3, 3 => k3
  | _, _ => none

/-- `node.child[q] = c` (out-of-range indices leave the node unchanged). -/
def setChild : QTNode → Nat → Option QTNode → QTNode
  | .mk ce sz b l _ k1 k2 k3, 0, c => .mk ce sz b l c k1 k2 k3
  | .mk ce sz b l k0 _ k2 k3, 1, c => .mk ce sz b l k0 c k2 k3
  | .mk ce sz b l k0 k1 _ k3, 2, c => .mk ce sz b l k0 k1 c k3
  | .mk ce sz b l k0 k1 k2 _, 3, c => .mk ce sz b l k0 k1 k2 c
  | n, _, _ => n

def setBucket : QTNode → List Point → QTNode
  | .mk ce sz _ l k0 k1 k2 k3, b => .mk ce sz b l k0 k1 k2 k3

def setLeaf : QTNode → Bool → QTNode
  | .mk ce sz b _ k0 k1 k2 k3, l => .mk ce sz b l k0 k1 k2 k3

/-- Number of nodes in the tree; a termination measure. -/
def count : QTNode → Nat
  | .mk _ _ _ _ k0 k1 k2 k3 =>
    1 + (match k0 with | none => 0 | some c => count c)
      + (match k1 with | none => 0 | some c => count c)
      + (match k2 with | none => 0 | some c => count c)
      + (match k3 with | none => 0 | some c => count c)

/-- All points held in any bucket of the subtree, own bucket first, then
children in quadrant order. -/
def stored : QTNode → List Point
  | .mk _ _ b _ k0 k1 k2 k3 =>
    b ++ (match k0 with | none => [] | some c => stored c)
      ++ (match k1 with | none => [] | some c => stored c)
      ++ (match k2 with | none => [] | some c => stored c)
      ++ (match k3 with | none => [] | some c => stored c)

/-- Pre-order traversal of the tree rooted at the given node
(`QuadTreeNode.preorder`). -/
def preorder : QTNode → List QTNode
  | .mk ce sz b l k0 k1 k2 k3 =>
    .mk ce sz b l k0 k1 k2 k3 ::
      ((match k0 with | none => [] | some c => preorder c)
        ++ (match k1 with | none => [] | some c => preorder c)
        ++ (match k2 with | none => [] | some c => preorder c)
        ++ (match k3 with | none => [] | some c => preorder c))

end QTNode

/-- `next_pow2(value) = float(1 << int(math.ceil(math.log2(value))))`:
the smallest power of two that is `≥ value` (`Int.clog 2` is the ceiling
of the base-2 logarithm). -/
def next_pow2 (value : ℚ) : ℚ := (2 : ℚ) ^ (Int.clog 2 value)

/-- `center_size(region)`: center and (half-)size for the root node from
a bounding box `(xymin, xymax)`. -/
def center_size (region : Point × Point) : Point × Point :=
  let x_min := region.1.x
  let y_min := region.1.y
  let x_max := region.2.x
  let y_max := region.2.y
  let x_size := x_max - x_min
  let y_size := y_max - y_min
  let c : Point := ⟨x_min + (1/2) * x_size, y_min + (1/2) * y_size⟩
  let hsize := max (next_pow2 x_size) (next_pow2 y_size)
  (c, ⟨hsize, hsize⟩)

/-- `QuadTreeNode.quadrant`: quadrant index of the child that would hold
`p`, judged against `center`; ties on an axis go to the upper half
(`>=` in the source). -/
def quadrant (center p : Point) : Nat :=
  (if p.x ≥ center.x then 2 else 0) + (if p.y ≥ center.y then 1 else 0)

/-- `QuadTreeNode.child_center`. -/
def child_center (center size : Point) (quad : Nat) : Point :=
  if quad = 0 then ⟨center.x - size.x / 2, center.y - size.y / 2⟩
  else if quad = 1 then ⟨center.x - size.x / 2, center.y + size.y / 2⟩
  else if quad = 2 then ⟨center.x + size.x / 2, center.y - size.y / 2⟩
  else if quad = 3 then ⟨center.x + size.x / 2, center.y + size.y / 2⟩
  else center

/-- A freshly constructed `QuadTreeNode(center, size)`: empty bucket,
leaf, no children. -/
def emptyNode (ce sz : Point) : QTNode := .mk ce sz [] true none none none none

/-- The child node a fresh call to `fitting_child_node` would create for
quadrant `q`: half the parent size, offset center. -/
def freshChild (ce sz : Point) (q : Nat) : QTNode :=
  emptyNode (child_center ce sz q) ⟨sz.x / 2, sz.y / 2⟩

/-- `QuadTreeNode.fitting_child_node`, split into the node it returns;
the caller (`insertChild`) also records it in the child slot, matching
the in-place update done by the source. -/
def fittingChild (n : QTNode) (v : Point) : QTNode :=
  match n.child (quadrant n.center v) with
  | some c => c
  | none => freshChild n.center n.size (quadrant n.center v)

/-- One routing step of `_insert`: `self._insert(v, node.fitting_child_node(v))`
with the recursive insertion given as `ins` (route `v` one level down,
creating the child slot if needed). -/
def insertChildF (ins : Point → QTNode → Option QTNode) (v : Point) (n : QTNode) :
    Option QTNode :=
  match ins v (fittingChild n v) with
  | none => none
  | some c2 => some (n.setChild (quadrant n.center v) (some c2))

/-- The re-insertion loop of the split branch:
`for w in node.bucket: self._insert(w, node.fitting_child_node(w))`. -/
def insertListF (ins : Point → QTNode → Option QTNode) :
    List Point → QTNode → Option QTNode
  | [], n => some n
  | w :: ws, n =>
    match insertChildF ins w n with
    | none => none
    | some n2 => insertListF ins ws n2

/-- `QuadTree._insert(v, node)`. `fuel` bounds the recursion depth (the
Python recursion is depth-bounded only by the interpreter stack; a call
that would recurse forever raises and never completes). `none` models a
call that does not complete; `some n` is the updated node. -/
def insertPoint (cap : Nat) : Nat → Point → QTNode → Option QTNode
  | 0, _, _ => none
  | fuel + 1, v, n =>
    if n.leaf then
      if n.bucket.length < cap then
        if v ∈ n.bucket then some n
        else some (n.setBucket (n.bucket ++ [v]))
      else
        match insertChildF (insertPoint cap fuel) v (n.setLeaf false) with
        | none => none
        | some n2 =>
          match insertListF (insertPoint cap fuel) n.bucket n2 with
          | none => none
          | some n3 => some (n3.setBucket [])
    else insertChildF (insertPoint cap fuel) v n

/-- `insertChildF` at recursion depth `fuel`. -/
def insertChild (cap fuel : Nat) : Point → QTNode → Option QTNode :=
  insertChildF (insertPoint cap fuel)

/-- `insertListF` at recursion depth `fuel`. -/
def insertList (cap fuel : Nat) : List Point → QTNode → Option QTNode :=
  insertListF (insertPoint cap fuel)

theorem insertList_nil (cap fuel : Nat) (n : QTNode) :
    insertList cap fuel [] n = some n := rfl

theorem insertList_cons (cap fuel : Nat) (w : Point) (ws : List Point) (n : QTNode) :
    insertList cap fuel (w :: ws) n =
      match insertChild cap fuel w n with
      | none => none
      | some n2 => insertList cap fuel ws n2 := rfl

/-- The four child slots in index order (`self.child`). -/
def QTNode.childList : QTNode → List (Option QTNode)
  | .mk _ _ _ _ k0 k1 k2 k3 => [k0, k1, k2, k3]

theorem count_eq_one_add (n : QTNode) :
    n.count = 1 + ((n.childList.map fun k =>
      match k with | none => 0 | some c => c.count).sum) := by
  cases n with
  | mk ce sz b l k0 k1 k2 k3 =>
    cases k0 <;> cases k1 <;> cases k2 <;> cases k3 <;>
      simp [QTNode.count, QTNode.childList] <;> ring

theorem count_pos (n : QTNode) : 0 < n.count := by
  rw [count_eq_one_add n]; omega

theorem child_eq_none_of_ge (n : QTNode) (q : Nat) (h : 4 ≤ q) : n.child q = none := by
  cases n; unfold QTNode.child
  match q, h with
  | (q + 4), _ => rfl

theorem child_count_lt (n : QTNode) (q : Nat) (c : QTNode) (h : n.child q = some c) :
    c.count < n.count := by
  cases n with
  | mk ce sz b l k0 k1 k2 k3 =>
    match q, h with
    | 0, h =>
      simp only [QTNode.child] at h
      subst h
      cases k1 <;> cases k2 <;> cases k3 <;> simp [QTNode.count] <;> omega
    | 1, h =>
      simp only [QTNode.child] at h
      subst h
      cases k0 <;> cases k2 <;> cases k3 <;> simp [QTNode.count] <;> omega
    | 2, h =>
      simp only [QTNode.child] at h
      subst h
      cases k0 <;> cases k1 <;> cases k3 <;> simp [QTNode.count] <;> omega
    | 3, h =>
      simp only [QTNode.child] at h
      subst h
      cases k0 <;> cases k1 <;> cases k2 <;> simp [QTNode.count] <;> omega
    | (q + 4), h =>
      rw [child_eq_none_of_ge _ _ (by omega)] at h
      cases h


/-- Does some present child fail `child[i].leaf`?  (the condition that
makes `_reduce` return without collapsing). -/
def hasStemChild (n : QTNode) : Bool :=
  n.childList.any fun k => match k with | none => false | some c => !c.leaf

/-- `numKeys` of `_reduce`: total bucket length of the present (leaf)
children. -/
def numKeys (n : QTNode) : Nat :=
  (n.childList.map fun k => match k with | none => 0 | some c => c.bucket.length).sum

/-- The collapse step of `_reduce`: extend the node's bucket with every
present child's bucket (in index order), drop all children, mark leaf. -/
def absorbChildren (n : QTNode) : QTNode :=
  match n with
  | .mk ce sz b _ k0 k1 k2 k3 =>
    .mk ce sz
      (b ++ (match k0 with | none => [] | some c => c.bucket)
         ++ (match k1 with | none => [] | some c => c.bucket)
         ++ (match k2 with | none => [] | some c => c.bucket)
         ++ (match k3 with | none => [] | some c => c.bucket))
      true none none none none

/-- One level of `QuadTree._reduce`: if any present child is a stem the
node is left alone (the source `return`s), otherwise if the children's
points fit in one bucket they are absorbed. -/
def reduceNode (cap : Nat) (n : QTNode) : QTNode :=
  if hasStemChild n then n
  else if numKeys n ≤ cap then absorbChildren n
  else n

/-- `QuadTree.remove(v)`: `none` models `return False` (point not found,
tree unmutated); `some n` models `return True` with the mutated tree.

The source walks down with an explicit `trace` list and then `_reduce`
walks the trace bottom-up, stopping at the first ancestor that cannot
collapse.  Here the same computation is expressed recursively: each
ancestor on the path applies `reduceNode` on the way back up.  This is
the same function: once a level fails to collapse it remains a stem, so
every ancestor above it has a stem child and `reduceNode` leaves it
unchanged — exactly the early-exit behaviour of the source loop. -/
def removePoint (cap : Nat) (v : Point) (n : QTNode) : Option QTNode :=
  if n.leaf then
    if v ∈ n.bucket then some (n.setBucket (n.bucket.erase v)) else none
  else
    match hc : n.child (quadrant n.center v) with
    | none => none
    | some c =>
      match removePoint cap v c with
      | none => none
      | some c2 => some (reduceNode cap (n.setChild (quadrant n.center v) (some c2)))
termination_by n.count
decreasing_by exact child_count_lt n _ c hc

/-- `QuadTree.__contains__`: walk down by quadrant until a leaf or a
missing child slot. -/
def containsPoint (v : Point) (n : QTNode) : Bool :=
  if n.leaf then v ∈ n.bucket
  else
    match hc : n.child (quadrant n.center v) with
    | none => false
    | some c => containsPoint v c
termination_by n.count
decreasing_by exact child_count_lt n _ c hc

/-- The descent shared by `__contains__` and `remove`: the leaf the
walk ends at, or `none` if a missing child slot is hit. -/
def findLeaf (v : Point) (n : QTNode) : Option QTNode :=
  if n.leaf then some n
  else
    match hc : n.child (quadrant n.center v) with
    | none => none
    | some c => findLeaf v c
termination_by n.count
decreasing_by exact child_count_lt n _ c hc

/-- `point_in_region(point, minXY, maxXY)`: inclusive containment on all
four bounds. -/
def point_in_region (p minXY maxXY : Point) : Bool :=
  decide (minXY.x ≤ p.x) && decide (p.x ≤ maxXY.x) &&
  decide (minXY.y ≤ p.y) && decide (p.y ≤ maxXY.y)

/-- `enclosure_status(center, size, minXY, maxXY)`: 0 = not in region,
1 = partially in region, 2 = contained by region (the module constants). -/
def enclosure_status (center size minXY maxXY : Point) : Nat :=
  let node_min : Point := ⟨center.x - size.x, center.y - size.y⟩
  let node_max : Point := ⟨center.x + size.x, center.y + size.y⟩
  if node_min.x > maxXY.x ∨ node_max.x < minXY.x ∨
      node_min.y > maxXY.y ∨ node_max.y < minXY.y then 0
  else
    let enclosed_pts :=
      (point_in_region ⟨center.x - size.x, center.y - size.y⟩ minXY maxXY).toNat +
      (point_in_region ⟨center.x - size.x, center.y + size.y⟩ minXY maxXY).toNat +
      (point_in_region ⟨center.x + size.x, center.y - size.y⟩ minXY maxXY).toNat +
      (point_in_region ⟨center.x + size.x, center.y + size.y⟩ minXY maxXY).toNat
    if enclosed_pts = 4 then 2 else 1

/-- `QuadTreeNode.add_all_points_to_results(results)`. -/
def add_all_points_to_results : QTNode → List Point → List Point
  | .mk _ _ b l k0 k1 k2 k3, results =>
    if l then results ++ b
    else
      let r0 := match k0 with | none => results | some c => add_all_points_to_results c results
      let r1 := match k1 with | none => r0 | some c => add_all_points_to_results c r0
      let r2 := match k2 with | none => r1 | some c => add_all_points_to_results c r1
      match k3 with | none => r2 | some c => add_all_points_to_results c r2

/-- The stem branch of the `range_search` loop body: classify each
present child; status 2 harvests the whole subtree into the results,
status 1 queues the child, status 0 drops it.  Returns the extended
results and the children to append to the work queue, in child order. -/
def scanChildren (minXY maxXY : Point) :
    List (Option QTNode) → List Point → List Point × List QTNode
  | [], results => (results, [])
  | none :: rest, results => scanChildren minXY maxXY rest results
  | some c :: rest, results =>
    let st := enclosure_status c.center c.size minXY maxXY
    if st = 2 then scanChildren minXY maxXY rest (add_all_points_to_results c results)
    else if st = 1 then
      let p := scanChildren minXY maxXY rest results
      (p.1, c :: p.2)
    else scanChildren minXY maxXY rest results

/-- Total node count of a work queue; the termination measure of the
`range_search` loop. -/
def qsize (l : List QTNode) : Nat := (l.map QTNode.count).sum

theorem scanChildren_qsize (minXY maxXY : Point) (l : List (Option QTNode))
    (results : List Point) :
    qsize (scanChildren minXY maxXY l results).2 ≤
      (l.map fun k => match k with | none => 0 | some c => c.count).sum := by
  induction l generalizing results with
  | nil => simp [scanChildren, qsize]
  | cons k rest ih =>
    cases k with
    | none =>
      simp only [scanChildren, List.map_cons, List.sum_cons]
      exact le_trans (ih results) (by omega)
    | some c =>
      simp only [scanChildren, List.map_cons, List.sum_cons]
      split
      · exact le_trans (ih _) (by omega)
      · split
        · simp only [qsize, List.map_cons, List.sum_cons]
          have := ih results
          simp only [qsize] at this
          omega
        · exact le_trans (ih _) (by omega)

/-- The `while nodes:` loop of `range_search`, with the deque as a list
(`popleft` = head, `append` = snoc). -/
def rangeSearchLoop (minXY maxXY : Point) : List QTNode → List Point → List Point
  | [], results => results
  | top :: rest, results =>
    if top.leaf then
      let st := enclosure_status top.center top.size minXY maxXY
      if st = 2 then rangeSearchLoop minXY maxXY rest (results ++ top.bucket)
      else if st = 1 then
        rangeSearchLoop minXY maxXY rest
          (results ++ top.bucket.filter fun v => point_in_region v minXY maxXY)
      else rangeSearchLoop minXY maxXY rest results
    else
      let p := scanChildren minXY maxXY top.childList results
      rangeSearchLoop minXY maxXY (rest ++ p.2) p.1
termination_by queue _ => qsize queue
decreasing_by
  · simp only [qsize, List.map_cons, List.sum_cons]
    have := count_pos top; omega
  · simp only [qsize, List.map_cons, List.sum_cons]
    have := count_pos top; omega
  · simp only [qsize, List.map_cons, List.sum_cons]
    have := count_pos top; omega
  · simp only [qsize, List.map_append, List.sum_append]
    have h1 := scanChildren_qsize minXY maxXY top.childList results
    have h2 := count_eq_one_add top
    simp only [qsize] at h1
    simp only [List.map_cons, List.sum_cons]
    omega

/-- `QuadTree.range_search(rect)`. -/
def range_search (t : QTNode) (rect : Point × Point) : List Point :=
  rangeSearchLoop rect.1 rect.2 [t] []

/-! ## The structural invariant

`wf cap n` is the well-formedness invariant the operations maintain:

* every bucket is duplicate-free;
* a leaf has at most `cap` points and no children;
* a stem has an empty bucket, at least one child, and at least one point
  somewhere below it;
* each present child has the geometry `fitting_child_node` gives it
  (offset center, half size), every point stored below it routes to its
  quadrant at this node, and is itself well-formed. -/

/-- Geometry and routing conditions for a child `c` in slot `q` of a node
with center `ce` and size `sz` (everything `wf` demands of the slot
except the recursive well-formedness of `c`). -/
def slotOK (ce sz : Point) (q : Nat) (c : QTNode) : Bool :=
  decide (c.center = child_center ce sz q) &&
  decide (c.size = Point.mk (sz.x / 2) (sz.y / 2)) &&
  c.stored.all fun p => decide (quadrant ce p = q)

/-- The invariant, as an executable check. -/
def wf (cap : Nat) : QTNode → Bool
  | .mk ce sz b l k0 k1 k2 k3 =>
    decide b.Nodup &&
    (if l then
      decide (b.length ≤ cap) && k0.isNone && k1.isNone && k2.isNone && k3.isNone
    else
      decide (b = []) && (k0.isSome || k1.isSome || k2.isSome || k3.isSome) &&
        decide ((QTNode.mk ce sz b l k0 k1 k2 k3).stored ≠ [])) &&
    (match k0 with | none => true | some c => slotOK ce sz 0 c && wf cap c) &&
    (match k1 with | none => true | some c => slotOK ce sz 1 c && wf cap c) &&
    (match k2 with | none => true | some c => slotOK ce sz 2 c && wf cap c) &&
    (match k3 with | none => true | some c => slotOK ce sz 3 c && wf cap c)

theorem wf_iff (cap : Nat) (ce sz : Point) (b : List Point) (l : Bool)
    (k0 k1 k2 k3 : Option QTNode) :
    wf cap (.mk ce sz b l k0 k1 k2 k3) = true ↔
      b.Nodup ∧
      (l = true → b.length ≤ cap ∧ k0 = none ∧ k1 = none ∧ k2 = none ∧ k3 = none) ∧
      (l = false → b = [] ∧ (k0 ≠ none ∨ k1 ≠ none ∨ k2 ≠ none ∨ k3 ≠ none) ∧
        (QTNode.mk ce sz b l k0 k1 k2 k3).stored ≠ []) ∧
      (∀ c, k0 = some c → slotOK ce sz 0 c = true ∧ wf cap c = true) ∧
      (∀ c, k1 = some c → slotOK ce sz 1 c = true ∧ wf cap c = true) ∧
      (∀ c, k2 = some c → slotOK ce sz 2 c = true ∧ wf cap c = true) ∧
      (∀ c, k3 = some c → slotOK ce sz 3 c = true ∧ wf cap c = true) := by
  cases l <;> cases k0 <;> cases k1 <;> cases k2 <;> cases k3 <;>
    simp [wf] <;> tauto

/-! ## Basic facts about the node accessors -/

/-- Points stored under an optional child. -/
def ostored : Option QTNode → List Point
  | none => []
  | some c => c.stored

/-- Points stored in the children subtrees, in quadrant order. -/
def childrenStored (n : QTNode) : List Point :=
  ostored (n.child 0) ++ ostored (n.child 1) ++ ostored (n.child 2) ++ ostored (n.child 3)

theorem stored_eq (n : QTNode) : n.stored = n.bucket ++ childrenStored n := by
  cases n with
  | mk ce sz b l k0 k1 k2 k3 =>
    cases k0 <;> cases k1 <;> cases k2 <;> cases k3 <;>
      simp [QTNode.stored, QTNode.bucket, QTNode.child, childrenStored, ostored]

theorem quadrant_lt_four (ce p : Point) : quadrant ce p < 4 := by
  unfold quadrant; split <;> split <;> omega

theorem setChild_center (n : QTNode) (q : Nat) (k : Option QTNode) :
    (n.setChild q k).center = n.center := by
  cases n; unfold QTNode.setChild
  match q with
  | 0 | 1 | 2 | 3 => rfl
  | (q + 4) => rfl

theorem setChild_size (n : QTNode) (q : Nat) (k : Option QTNode) :
    (n.setChild q k).size = n.size := by
  cases n; unfold QTNode.setChild
  match q with
  | 0 | 1 | 2 | 3 => rfl
  | (q + 4) => rfl

theorem setChild_bucket (n : QTNode) (q : Nat) (k : Option QTNode) :
    (n.setChild q k).bucket = n.bucket := by
  cases n; unfold QTNode.setChild
  match q with
  | 0 | 1 | 2 | 3 => rfl
  | (q + 4) => rfl

theorem setChild_leaf (n : QTNode) (q : Nat) (k : Option QTNode) :
    (n.setChild q k).leaf = n.leaf := by
  cases n; unfold QTNode.setChild
  match q with
  | 0 | 1 | 2 | 3 => rfl
  | (q + 4) => rfl

theorem setChild_child_self (n : QTNode) (q : Nat) (k : Option QTNode) (h : q < 4) :
    (n.setChild q k).child q = k := by
  cases n; unfold QTNode.setChild QTNode.child
  match q, h with
  | 0, _ | 1, _ | 2, _ | 3, _ => rfl

theorem setChild_child_other (n : QTNode) (q q' : Nat) (k : Option QTNode)
    (h : q' ≠ q) : (n.setChild q k).child q' = n.child q' := by
  rcases Nat.lt_or_ge q 4 with hq | hq
  · cases n
    match q, hq with
    | 0, _ | 1, _ | 2, _ | 3, _ =>
      unfold QTNode.setChild QTNode.child
      match q' with
      | 0 | 1 | 2 | 3 => first | rfl | (exact absurd rfl h)
      | (i + 4) => rfl
  · cases n
    unfold QTNode.setChild
    match q, hq with
    | (q + 4), _ => rfl

theorem setBucket_center (n : QTNode) (b : List Point) : (n.setBucket b).center = n.center := by
  cases n; rfl

theorem setBucket_size (n : QTNode) (b : List Point) : (n.setBucket b).size = n.size := by
  cases n; rfl

theorem setBucket_bucket (n : QTNode) (b : List Point) : (n.setBucket b).bucket = b := by
  cases n; rfl

theorem setBucket_leaf (n : QTNode) (b : List Point) : (n.setBucket b).leaf = n.leaf := by
  cases n; rfl

theorem setBucket_child (n : QTNode) (b : List Point) (q : Nat) :
    (n.setBucket b).child q = n.child q := by
  cases n
  match q with
  | 0 | 1 | 2 | 3 => rfl
  | (q + 4) => rfl

theorem setLeaf_center (n : QTNode) (l : Bool) : (n.setLeaf l).center = n.center := by
  cases n; rfl

theorem setLeaf_size (n : QTNode) (l : Bool) : (n.setLeaf l).size = n.size := by
  cases n; rfl

theorem setLeaf_bucket (n : QTNode) (l : Bool) : (n.setLeaf l).bucket = n.bucket := by
  cases n; rfl

theorem setLeaf_leaf (n : QTNode) (l : Bool) : (n.setLeaf l).leaf = l := by
  cases n; rfl

theorem setLeaf_child (n : QTNode) (l : Bool) (q : Nat) :
    (n.setLeaf l).child q = n.child q := by
  cases n
  match q with
  | 0 | 1 | 2 | 3 => rfl
  | (q + 4) => rfl

theorem childrenStored_setBucket (n : QTNode) (b : List Point) :
    childrenStored (n.setBucket b) = childrenStored n := by
  simp [childrenStored, setBucket_child]

theorem childrenStored_setLeaf (n : QTNode) (l : Bool) :
    childrenStored (n.setLeaf l) = childrenStored n := by
  simp [childrenStored, setLeaf_child]

theorem mem_ostored (k : Option QTNode) (x : Point) :
    x ∈ ostored k ↔ ∃ c, k = some c ∧ x ∈ c.stored := by
  cases k <;> simp [ostored]

theorem mem_childrenStored_iff (n : QTNode) (x : Point) :
    x ∈ childrenStored n ↔ ∃ q c, q < 4 ∧ n.child q = some c ∧ x ∈ c.stored := by
  simp only [childrenStored, List.mem_append, mem_ostored]
  constructor
  · rintro (((⟨c, hk, h⟩ | ⟨c, hk, h⟩) | ⟨c, hk, h⟩) | ⟨c, hk, h⟩)
    · exact ⟨0, c, by omega, hk, h⟩
    · exact ⟨1, c, by omega, hk, h⟩
    · exact ⟨2, c, by omega, hk, h⟩
    · exact ⟨3, c, by omega, hk, h⟩
  · rintro ⟨q, c, hlt, hk, h⟩
    match q, hlt with
    | 0, _ => exact Or.inl (Or.inl (Or.inl ⟨c, hk, h⟩))
    | 1, _ => exact Or.inl (Or.inl (Or.inr ⟨c, hk, h⟩))
    | 2, _ => exact Or.inl (Or.inr ⟨c, hk, h⟩)
    | 3, _ => exact Or.inr ⟨c, hk, h⟩

theorem childrenStored_setChild (n : QTNode) (q : Nat) (k : Option QTNode) (hq : q < 4) :
    ∀ x, x ∈ childrenStored (n.setChild q k) ↔
      x ∈ ostored k ∨ ∃ q', q' < 4 ∧ q' ≠ q ∧ x ∈ ostored (n.child q') := by
  intro x
  rw [mem_childrenStored_iff]
  constructor
  · rintro ⟨q', c, hlt, hk, hx⟩
    by_cases hq' : q' = q
    · subst hq'
      rw [setChild_child_self n q' k hlt] at hk
      exact Or.inl ((mem_ostored k x).2 ⟨c, hk, hx⟩)
    · rw [setChild_child_other n q q' k hq'] at hk
      exact Or.inr ⟨q', hlt, hq', (mem_ostored _ x).2 ⟨c, hk, hx⟩⟩
  · rintro (h | ⟨q', hlt, hne, h⟩)
    · obtain ⟨c, hk, hx⟩ := (mem_ostored k x).1 h
      exact ⟨q, c, hq, by rw [setChild_child_self n q k hq]; exact hk, hx⟩
    · obtain ⟨c, hk, hx⟩ := (mem_ostored _ x).1 h
      exact ⟨q', c, hlt, by rw [setChild_child_other n q q' k hne]; exact hk, hx⟩

theorem setChild_self (n : QTNode) (q : Nat) : n.setChild q (n.child q) = n := by
  cases n
  match q with
  | 0 | 1 | 2 | 3 => rfl
  | (q + 4) => rfl

theorem mem_stored_iff (n : QTNode) (x : Point) :
    x ∈ n.stored ↔ x ∈ n.bucket ∨ x ∈ childrenStored n := by
  rw [stored_eq]; simp

theorem stored_emptyNode (ce sz : Point) : (emptyNode ce sz).stored = [] := by
  simp [emptyNode, QTNode.stored]

theorem stored_freshChild (ce sz : Point) (q : Nat) : (freshChild ce sz q).stored = [] := by
  simp [freshChild, stored_emptyNode]

theorem mem_stored_fittingChild (n : QTNode) (v : Point) (x : Point) :
    x ∈ (fittingChild n v).stored ↔ x ∈ ostored (n.child (quadrant n.center v)) := by
  unfold fittingChild
  cases h : n.child (quadrant n.center v) <;> simp [ostored, stored_freshChild]

/-- The per-slot portion of the invariant: what `wf` requires of each
present child of `n` (used for nodes mid-split whose own bucket/leaf
fields are not yet consistent). -/
def SlotsWF (cap : Nat) (n : QTNode) : Prop :=
  ∀ q c, n.child q = some c → slotOK n.center n.size q c = true ∧ wf cap c = true

theorem slotOK_iff (ce sz : Point) (q : Nat) (c : QTNode) :
    slotOK ce sz q c = true ↔
      c.center = child_center ce sz q ∧ c.size = Point.mk (sz.x / 2) (sz.y / 2) ∧
      ∀ p ∈ c.stored, quadrant ce p = q := by
  simp [slotOK, List.all_eq_true, and_assoc]

/-- `wf` phrased through the accessors. -/
theorem wf_iff_acc (cap : Nat) (n : QTNode) :
    wf cap n = true ↔
      n.bucket.Nodup ∧
      (n.leaf = true → n.bucket.length ≤ cap ∧ ∀ q, n.child q = none) ∧
      (n.leaf = false → n.bucket = [] ∧ (∃ q, q < 4 ∧ (n.child q).isSome) ∧
        n.stored ≠ []) ∧
      SlotsWF cap n := by
  cases n with
  | mk ce sz b l k0 k1 k2 k3 =>
    rw [wf_iff]
    simp only [QTNode.bucket, QTNode.leaf, QTNode.center, QTNode.size]
    constructor
    · rintro ⟨hnd, hlf, hst, h0, h1, h2, h3⟩
      refine ⟨hnd, ?_, ?_, ?_⟩
      · intro hl
        obtain ⟨hlen, e0, e1, e2, e3⟩ := hlf hl
        refine ⟨hlen, ?_⟩
        intro q
        match q with
        | 0 => exact e0
        | 1 => exact e1
        | 2 => exact e2
        | 3 => exact e3
        | (q + 4) => exact child_eq_none_of_ge _ _ (by omega)
      · intro hl
        obtain ⟨hb, hex, hne⟩ := hst hl
        refine ⟨hb, ?_, hne⟩
        rcases hex with h | h | h | h
        · exact ⟨0, by omega, by simp [QTNode.child]; exact Option.ne_none_iff_isSome.1 h⟩
        · exact ⟨1, by omega, by simp [QTNode.child]; exact Option.ne_none_iff_isSome.1 h⟩
        · exact ⟨2, by omega, by simp [QTNode.child]; exact Option.ne_none_iff_isSome.1 h⟩
        · exact ⟨3, by omega, by simp [QTNode.child]; exact Option.ne_none_iff_isSome.1 h⟩
      · intro q c hc
        match q with
        | 0 => exact h0 c hc
        | 1 => exact h1 c hc
        | 2 => exact h2 c hc
        | 3 => exact h3 c hc
    · rintro ⟨hnd, hlf, hst, hslots⟩
      refine ⟨hnd, ?_, ?_, ?_, ?_, ?_, ?_⟩
      · intro hl
        obtain ⟨hlen, hch⟩ := hlf hl
        exact ⟨hlen, hch 0, hch 1, hch 2, hch 3⟩
      · intro hl
        obtain ⟨hb, ⟨q, hq, hsome⟩, hne⟩ := hst hl
        refine ⟨hb, ?_, hne⟩
        match q, hq with
        | 0, _ => exact Or.inl (by simpa [QTNode.child, Option.ne_none_iff_isSome] using hsome)
        | 1, _ => exact Or.inr (Or.inl (by simpa [QTNode.child, Option.ne_none_iff_isSome] using hsome))
        | 2, _ => exact Or.inr (Or.inr (Or.inl (by simpa [QTNode.child, Option.ne_none_iff_isSome] using hsome)))
        | 3, _ => exact Or.inr (Or.inr (Or.inr (by simpa [QTNode.child, Option.ne_none_iff_isSome] using hsome)))
      · exact fun c hc => hslots 0 c hc
      · exact fun c hc => hslots 1 c hc
      · exact fun c hc => hslots 2 c hc
      · exact fun c hc => hslots 3 c hc

theorem wf_emptyNode (cap : Nat) (ce sz : Point) : wf cap (emptyNode ce sz) = true := by
  simp [emptyNode, wf]

theorem wf_freshChild (cap : Nat) (ce sz : Point) (q : Nat) :
    wf cap (freshChild ce sz q) = true := by
  simp [freshChild, emptyNode, wf]

theorem wf_fittingChild (cap : Nat) (n : QTNode) (v : Point) (h : SlotsWF cap n) :
    wf cap (fittingChild n v) = true := by
  unfold fittingChild
  cases hc : n.child (quadrant n.center v) with
  | none => exact wf_freshChild cap n.center n.size _
  | some c => exact (h _ c hc).2

/-! ## What insertion does to the stored points -/

theorem insertChild_some_iff (cap fuel : Nat) (v : Point) (n n' : QTNode) :
    insertChild cap fuel v n = some n' ↔
      ∃ c2, insertPoint cap fuel v (fittingChild n v) = some c2 ∧
        n' = n.setChild (quadrant n.center v) (some c2) := by
  unfold insertChild insertChildF
  cases h : insertPoint cap fuel v (fittingChild n v) <;> simp [h, eq_comm]

/-- The conclusion of the effect lemma for `_insert` on a node: center and
size untouched, stored points grown by exactly `v`. -/
def EffP (v : Point) (n n' : QTNode) : Prop :=
  n'.center = n.center ∧ n'.size = n.size ∧
  ∀ x, x ∈ n'.stored ↔ x ∈ n.stored ∨ x = v

/-- The conclusion of the effect lemma for one `fitting_child_node`
insertion step: only the child slots change, and the points below gain
exactly `v`; child slots never go from present to absent. -/
def EffC (v : Point) (n n' : QTNode) : Prop :=
  n'.center = n.center ∧ n'.size = n.size ∧ n'.bucket = n.bucket ∧ n'.leaf = n.leaf ∧
  (∀ x, x ∈ childrenStored n' ↔ x ∈ childrenStored n ∨ x = v) ∧
  (∀ q, (n.child q).isSome = true → (n'.child q).isSome = true) ∧
  (n'.child (quadrant n.center v)).isSome = true

theorem insertPoint_leaf_dup (cap fuel : Nat) (v : Point) (n : QTNode)
    (hl : n.leaf = true) (hroom : n.bucket.length < cap) (hdup : v ∈ n.bucket) :
    insertPoint cap (fuel + 1) v n = some n := by
  rw [insertPoint]; simp [hl, hroom, hdup]

theorem insertPoint_leaf_new (cap fuel : Nat) (v : Point) (n : QTNode)
    (hl : n.leaf = true) (hroom : n.bucket.length < cap) (hdup : v ∉ n.bucket) :
    insertPoint cap (fuel + 1) v n = some (n.setBucket (n.bucket ++ [v])) := by
  rw [insertPoint]; simp [hl, hroom, hdup]

theorem insertPoint_stem (cap fuel : Nat) (v : Point) (n : QTNode)
    (hl : n.leaf = false) :
    insertPoint cap (fuel + 1) v n = insertChild cap fuel v n := by
  rw [insertPoint]; simp [hl]; rfl

theorem insertPoint_split_iff (cap fuel : Nat) (v : Point) (n n' : QTNode)
    (hl : n.leaf = true) (hroom : ¬n.bucket.length < cap) :
    insertPoint cap (fuel + 1) v n = some n' ↔
      ∃ n2 n3, insertChild cap fuel v (n.setLeaf false) = some n2 ∧
        insertList cap fuel n.bucket n2 = some n3 ∧ n' = n3.setBucket [] := by
  rw [insertPoint, if_pos hl, if_neg hroom]
  rw [show insertChildF (insertPoint cap fuel) = insertChild cap fuel from rfl,
    show insertListF (insertPoint cap fuel) = insertList cap fuel from rfl]
  cases h1 : insertChild cap fuel v (n.setLeaf false) with
  | none => simp
  | some n2 =>
    cases h2 : insertList cap fuel n.bucket n2 with
    | none => simp [h2]
    | some n3 => simp [h2, eq_comm]

theorem insertChild_effect_of (cap fuel : Nat)
    (IH : ∀ v n n', insertPoint cap fuel v n = some n' → EffP v n n') :
    ∀ v n n', insertChild cap fuel v n = some n' → EffC v n n' := by
  intro v n n' h
  obtain ⟨c2, hp, rfl⟩ := (insertChild_some_iff cap fuel v n n').1 h
  obtain ⟨hce, hsz, hmem⟩ := IH v _ _ hp
  have hq4 := quadrant_lt_four n.center v
  refine ⟨setChild_center .., setChild_size .., setChild_bucket .., setChild_leaf .., ?_, ?_, ?_⟩
  · intro x
    rw [childrenStored_setChild n _ _ hq4 x]
    have hdec := childrenStored_setChild n _ (n.child (quadrant n.center v)) hq4 x
    rw [setChild_self] at hdec
    rw [hdec]
    have hc2 : x ∈ ostored (some c2) ↔
        x ∈ ostored (n.child (quadrant n.center v)) ∨ x = v := by
      rw [show ostored (some c2) = c2.stored from rfl, hmem x, mem_stored_fittingChild]
    rw [hc2]
    constructor
    · rintro ((h | h) | h)
      · exact Or.inl (Or.inl h)
      · exact Or.inr h
      · exact Or.inl (Or.inr h)
    · rintro ((h | h) | h)
      · exact Or.inl (Or.inl h)
      · exact Or.inr h
      · exact Or.inl (Or.inr h)
  · intro q hsome
    by_cases hq : q = quadrant n.center v
    · subst hq; rw [setChild_child_self n _ _ hq4]; rfl
    · rw [setChild_child_other n _ q _ (by omega)]; exact hsome
  · rw [setChild_child_self n _ _ hq4]; rfl

/-- Effect of the split re-insertion loop. -/
def EffL (ws : List Point) (n n' : QTNode) : Prop :=
  n'.center = n.center ∧ n'.size = n.size ∧ n'.bucket = n.bucket ∧ n'.leaf = n.leaf ∧
  (∀ x, x ∈ childrenStored n' ↔ x ∈ childrenStored n ∨ x ∈ ws) ∧
  (∀ q, (n.child q).isSome = true → (n'.child q).isSome = true)

theorem insertList_effect_of (cap fuel : Nat)
    (IH : ∀ v n n', insertChild cap fuel v n = some n' → EffC v n n') :
    ∀ ws n n', insertList cap fuel ws n = some n' → EffL ws n n' := by
  intro ws
  induction ws with
  | nil =>
    intro n n' h
    rw [insertList_nil] at h
    cases h
    exact ⟨rfl, rfl, rfl, rfl, by simp, by simp⟩
  | cons w ws ih =>
    intro n n' h
    rw [insertList_cons] at h
    cases hc : insertChild cap fuel w n with
    | none => rw [hc] at h; cases h
    | some n2 =>
      rw [hc] at h
      simp only at h
      obtain ⟨hce1, hsz1, hb1, hl1, hm1, hmono1, _⟩ := IH w n n2 hc
      obtain ⟨hce2, hsz2, hb2, hl2, hm2, hmono2⟩ := ih n2 n' h
      refine ⟨hce2.trans hce1, hsz2.trans hsz1, hb2.trans hb1, hl2.trans hl1, ?_, ?_⟩
      · intro x
        rw [hm2 x, hm1 x]
        simp only [List.mem_cons]
        tauto
      · exact fun q hq => hmono2 q (hmono1 q hq)

theorem insertPoint_effect (cap : Nat) :
    ∀ fuel v n n', insertPoint cap fuel v n = some n' → EffP v n n' := by
  intro fuel
  induction fuel with
  | zero => intro v n n' h; rw [insertPoint] at h; cases h
  | succ fuel ih =>
    have effC := insertChild_effect_of cap fuel ih
    have effL := insertList_effect_of cap fuel effC
    intro v n n' h
    cases hl : n.leaf with
    | true =>
      by_cases hroom : n.bucket.length < cap
      · by_cases hdup : v ∈ n.bucket
        · rw [insertPoint_leaf_dup cap fuel v n hl hroom hdup] at h
          cases h
          refine ⟨rfl, rfl, fun x => ?_⟩
          constructor
          · exact Or.inl
          · rintro (hx | rfl)
            · exact hx
            · rw [mem_stored_iff]; exact Or.inl hdup
        · rw [insertPoint_leaf_new cap fuel v n hl hroom hdup] at h
          cases h
          refine ⟨setBucket_center .., setBucket_size .., fun x => ?_⟩
          rw [mem_stored_iff, mem_stored_iff, setBucket_bucket, childrenStored_setBucket]
          simp only [List.mem_append, List.mem_singleton]
          tauto
      · obtain ⟨n2, n3, hc, hli, rfl⟩ :=
          (insertPoint_split_iff cap fuel v n n' hl hroom).1 h
        obtain ⟨hce1, hsz1, hb1, hl1, hm1, _, _⟩ := effC v _ _ hc
        obtain ⟨hce2, hsz2, hb2, hl2, hm2, _⟩ := effL n.bucket _ _ hli
        rw [setLeaf_center] at hce1
        rw [setLeaf_size] at hsz1
        refine ⟨(setBucket_center ..).trans (hce2.trans hce1),
          (setBucket_size ..).trans (hsz2.trans hsz1), fun x => ?_⟩
        rw [mem_stored_iff, setBucket_bucket, childrenStored_setBucket,
          hm2 x, hm1 x, childrenStored_setLeaf, mem_stored_iff]
        simp only [List.not_mem_nil, false_or]
        tauto
    | false =>
      rw [insertPoint_stem cap fuel v n hl] at h
      obtain ⟨hce, hsz, hb, _, hm, _, _⟩ := effC v n n' h
      refine ⟨hce, hsz, fun x => ?_⟩
      rw [mem_stored_iff, mem_stored_iff, hm x, hb]
      tauto

theorem insertChild_effect (cap fuel : Nat) (v : Point) (n n' : QTNode)
    (h : insertChild cap fuel v n = some n') : EffC v n n' :=
  insertChild_effect_of cap fuel (insertPoint_effect cap fuel) v n n' h

theorem insertList_effect (cap fuel : Nat) (ws : List Point) (n n' : QTNode)
    (h : insertList cap fuel ws n = some n') : EffL ws n n' :=
  insertList_effect_of cap fuel
    (insertChild_effect_of cap fuel (insertPoint_effect cap fuel)) ws n n' h

/-! ## Insertion preserves the invariant -/

theorem fittingChild_geom (cap : Nat) (n : QTNode) (v : Point) (h : SlotsWF cap n) :
    (fittingChild n v).center = child_center n.center n.size (quadrant n.center v) ∧
    (fittingChild n v).size = Point.mk (n.size.x / 2) (n.size.y / 2) ∧
    ∀ p ∈ (fittingChild n v).stored, quadrant n.center p = quadrant n.center v := by
  unfold fittingChild
  cases hc : n.child (quadrant n.center v) with
  | none =>
    refine ⟨?_, ?_, ?_⟩
    · simp [freshChild, emptyNode, QTNode.center]
    · simp [freshChild, emptyNode, QTNode.size]
    · intro p hp
      rw [stored_freshChild] at hp
      cases hp
  | some c =>
    obtain ⟨hok, -⟩ := h _ c hc
    exact (slotOK_iff n.center n.size _ c).1 hok

theorem insertChild_slots_of (cap fuel : Nat)
    (IHe : ∀ v n n', insertPoint cap fuel v n = some n' → EffP v n n')
    (IHw : ∀ v n n', wf cap n = true → insertPoint cap fuel v n = some n' →
      wf cap n' = true) :
    ∀ v n n', SlotsWF cap n → insertChild cap fuel v n = some n' → SlotsWF cap n' := by
  intro v n n' hs h
  obtain ⟨c2, hp, rfl⟩ := (insertChild_some_iff cap fuel v n n').1 h
  have hq4 := quadrant_lt_four n.center v
  obtain ⟨hce, hsz, hmem⟩ := IHe v _ _ hp
  obtain ⟨hgc, hgs, hgr⟩ := fittingChild_geom cap n v hs
  intro q c hqc
  rw [setChild_center, setChild_size]
  by_cases hq : q = quadrant n.center v
  · subst hq
    rw [setChild_child_self n _ _ hq4] at hqc
    cases hqc
    constructor
    · rw [slotOK_iff]
      refine ⟨hce.trans hgc, hsz.trans hgs, ?_⟩
      intro p hp
      rcases (hmem p).1 hp with hp' | rfl
      · exact hgr p hp'
      · rfl
    · exact IHw v _ _ (wf_fittingChild cap n v hs) hp
  · rw [setChild_child_other n _ q _ hq] at hqc
    exact hs q c hqc

theorem insertList_slots_of (cap fuel : Nat)
    (IHs : ∀ v n n', SlotsWF cap n → insertChild cap fuel v n = some n' →
      SlotsWF cap n') :
    ∀ ws n n', SlotsWF cap n → insertList cap fuel ws n = some n' →
      SlotsWF cap n' := by
  intro ws
  induction ws with
  | nil =>
    intro n n' hs h
    rw [insertList_nil] at h
    cases h
    exact hs
  | cons w ws ih =>
    intro n n' hs h
    rw [insertList_cons] at h
    cases hc : insertChild cap fuel w n with
    | none => rw [hc] at h; cases h
    | some n2 =>
      rw [hc] at h
      simp only at h
      exact ih n2 n' (IHs w n n2 hs hc) h

theorem wf_slots (cap : Nat) (n : QTNode) (h : wf cap n = true) : SlotsWF cap n :=
  ((wf_iff_acc cap n).1 h).2.2.2

theorem insertPoint_wf (cap : Nat) :
    ∀ fuel v n n', wf cap n = true → insertPoint cap fuel v n = some n' →
      wf cap n' = true := by
  intro fuel
  induction fuel with
  | zero => intro v n n' _ h; rw [insertPoint] at h; cases h
  | succ fuel ih =>
    have effP := insertPoint_effect cap fuel
    have effC := insertChild_effect_of cap fuel effP
    have effL := insertList_effect_of cap fuel effC
    have slotsC := insertChild_slots_of cap fuel effP ih
    have slotsL := insertList_slots_of cap fuel slotsC
    intro v n n' hwf h
    obtain ⟨hnd, hlf, hst, hslots⟩ := (wf_iff_acc cap n).1 hwf
    cases hl : n.leaf with
    | true =>
      obtain ⟨hlen, hnone⟩ := hlf hl
      by_cases hroom : n.bucket.length < cap
      · by_cases hdup : v ∈ n.bucket
        · rw [insertPoint_leaf_dup cap fuel v n hl hroom hdup] at h
          cases h
          exact hwf
        · rw [insertPoint_leaf_new cap fuel v n hl hroom hdup] at h
          cases h
          rw [wf_iff_acc]
          refine ⟨?_, ?_, ?_, ?_⟩
          · rw [setBucket_bucket]
            simp [List.nodup_append, hnd, hdup]
          · intro _
            rw [setBucket_bucket]
            constructor
            · simp only [List.length_append, List.length_singleton]
              omega
            · intro q
              rw [setBucket_child]
              exact hnone q
          · intro hfalse
            rw [setBucket_leaf, hl] at hfalse
            cases hfalse
          · intro q c hqc
            rw [setBucket_child] at hqc
            rw [hnone q] at hqc
            cases hqc
      · obtain ⟨n2, n3, hc, hli, rfl⟩ :=
          (insertPoint_split_iff cap fuel v n n' hl hroom).1 h
        have hs1 : SlotsWF cap (n.setLeaf false) := by
          intro q c hqc
          rw [setLeaf_child] at hqc
          rw [hnone q] at hqc
          cases hqc
        have hs2 := slotsC v _ n2 hs1 hc
        have hs3 := slotsL n.bucket n2 n3 hs2 hli
        obtain ⟨hce1, hsz1, hb1, hl1, hm1, hmono1, hsome1⟩ := effC v _ _ hc
        obtain ⟨hce2, hsz2, hb2, hl2, hm2, hmono2⟩ := effL n.bucket _ _ hli
        have hsome3 : (n3.child (quadrant (n.setLeaf false).center v)).isSome = true :=
          hmono2 _ hsome1
        rw [wf_iff_acc]
        refine ⟨?_, ?_, ?_, ?_⟩
        · rw [setBucket_bucket]; exact List.nodup_nil
        · intro htrue
          rw [setBucket_leaf, hl2, hl1, setLeaf_leaf] at htrue
          cases htrue
        · intro _
          refine ⟨setBucket_bucket .., ?_, ?_⟩
          · refine ⟨quadrant (n.setLeaf false).center v, ?_, ?_⟩
            · rw [setLeaf_center]; exact quadrant_lt_four n.center v
            · rw [setBucket_child]; exact hsome3
          · have hv : v ∈ childrenStored n3 := by
              rw [hm2 v]
              exact Or.inl ((hm1 v).2 (Or.inr rfl))
            have : v ∈ (n3.setBucket []).stored := by
              rw [mem_stored_iff, childrenStored_setBucket]
              exact Or.inr hv
            exact List.ne_nil_of_mem this
        · intro q c hqc
          rw [setBucket_child] at hqc
          rw [setBucket_center, setBucket_size]
          exact hs3 q c hqc
    | false =>
      rw [insertPoint_stem cap fuel v n hl] at h
      have hs' := slotsC v n n' (wf_slots cap n hwf) h
      obtain ⟨hce, hsz, hb, hlf', hm, hmono, hsome⟩ := effC v n n' h
      obtain ⟨hbem, -, -⟩ := hst hl
      rw [wf_iff_acc]
      refine ⟨?_, ?_, ?_, hs'⟩
      · rw [hb]; exact hnd
      · intro htrue
        rw [hlf', hl] at htrue
        cases htrue
      · intro _
        refine ⟨hb.trans hbem, ⟨quadrant n.center v, quadrant_lt_four n.center v, hsome⟩, ?_⟩
        have hv : v ∈ n'.stored := by
          rw [mem_stored_iff, hm v]
          exact Or.inr (Or.inr rfl)
        exact List.ne_nil_of_mem hv

theorem insertChild_slots (cap fuel : Nat) (v : Point) (n n' : QTNode)
    (hs : SlotsWF cap n) (h : insertChild cap fuel v n = some n') : SlotsWF cap n' :=
  insertChild_slots_of cap fuel (insertPoint_effect cap fuel)
    (fun v n n' => insertPoint_wf cap fuel v n n') v n n' hs h

/-! ## No point is stored twice -/

theorem childrenStored_of_no_children (n : QTNode) (h : ∀ q, n.child q = none) :
    childrenStored n = [] := by
  unfold childrenStored
  rw [h 0, h 1, h 2, h 3]
  rfl

theorem stored_of_leaf (cap : Nat) (n : QTNode) (hwf : wf cap n = true)
    (hl : n.leaf = true) : n.stored = n.bucket := by
  obtain ⟨-, hlf, -, -⟩ := (wf_iff_acc cap n).1 hwf
  rw [stored_eq, childrenStored_of_no_children n (hlf hl).2, List.append_nil]

theorem stored_nodup_of (cap : Nat) : ∀ cnt (n : QTNode), n.count ≤ cnt →
    n.bucket.Nodup → (∀ x ∈ n.bucket, x ∉ childrenStored n) → SlotsWF cap n →
    n.stored.Nodup := by
  intro cnt
  induction cnt with
  | zero =>
    intro n hcnt
    have := count_pos n
    omega
  | succ cnt ih =>
    intro n hcnt hb hdisj hs
    have hnodup_child : ∀ q c, n.child q = some c → c.stored.Nodup := by
      intro q c hc
      have hwfc := (hs q c hc).2
      obtain ⟨hb', hlf', hst', hs'⟩ := (wf_iff_acc cap c).1 hwfc
      refine ih c (by have := child_count_lt n q c hc; omega) hb' ?_ hs'
      intro x hx
      cases hlc : c.leaf with
      | true =>
        rw [childrenStored_of_no_children c (hlf' hlc).2]
        simp
      | false =>
        rw [(hst' hlc).1] at hx
        cases hx
    have hA : ∀ q, (ostored (n.child q)).Nodup := by
      intro q
      cases hc : n.child q with
      | none => exact List.nodup_nil
      | some c => exact hnodup_child q c hc
    have hD : ∀ q q', q ≠ q' →
        List.Disjoint (ostored (n.child q)) (ostored (n.child q')) := by
      intro q q' hne x hx hx'
      obtain ⟨c, hc, hxc⟩ := (mem_ostored _ x).1 hx
      obtain ⟨c', hc', hxc'⟩ := (mem_ostored _ x).1 hx'
      have h1 := ((slotOK_iff n.center n.size q c).1 (hs q c hc).1).2.2 x hxc
      have h2 := ((slotOK_iff n.center n.size q' c').1 (hs q' c' hc').1).2.2 x hxc'
      exact hne (h1 ▸ h2 ▸ rfl)
    rw [stored_eq]
    rw [List.nodup_append]
    refine ⟨hb, ?_, hdisj⟩
    unfold childrenStored
    rw [List.nodup_append, List.nodup_append, List.nodup_append]
    refine ⟨⟨⟨hA 0, hA 1, hD 0 1 (by omega)⟩, hA 2, ?_⟩, hA 3, ?_⟩
    · intro x hx
      rcases List.mem_append.1 hx with h | h
      · exact hD 0 2 (by omega) h
      · exact hD 1 2 (by omega) h
    · intro x hx
      rcases List.mem_append.1 hx with h | h
      · rcases List.mem_append.1 h with h' | h'
        · exact hD 0 3 (by omega) h'
        · exact hD 1 3 (by omega) h'
      · exact hD 2 3 (by omega) h

theorem wf_stored_nodup (cap : Nat) (n : QTNode) (hwf : wf cap n = true) :
    n.stored.Nodup := by
  obtain ⟨hb, hlf, hst, hs⟩ := (wf_iff_acc cap n).1 hwf
  refine stored_nodup_of cap n.count n le_rfl hb ?_ hs
  intro x hx
  cases hl : n.leaf with
  | true =>
    rw [childrenStored_of_no_children n (hlf hl).2]
    simp
  | false =>
    rw [(hst hl).1] at hx
    cases hx

/-! ## Removal and upward reduction -/

theorem quadrant_cases (ce v : Point) :
    quadrant ce v = 0 ∨ quadrant ce v = 1 ∨ quadrant ce v = 2 ∨ quadrant ce v = 3 := by
  unfold quadrant; split <;> split <;> omega

theorem child_some_lt (n : QTNode) (q : Nat) (c : QTNode) (h : n.child q = some c) :
    q < 4 := by
  by_contra hge
  rw [child_eq_none_of_ge n q (by omega)] at h
  cases h

theorem mem_stored_of_child (n : QTNode) (q : Nat) (c : QTNode) (x : Point)
    (hc : n.child q = some c) (hx : x ∈ c.stored) : x ∈ n.stored := by
  rw [mem_stored_iff]
  exact Or.inr ((mem_childrenStored_iff n x).2 ⟨q, c, child_some_lt n q c hc, hc, hx⟩)

theorem hasStemChild_iff (m : QTNode) :
    hasStemChild m = true ↔ ∃ q c, q < 4 ∧ m.child q = some c ∧ c.leaf = false := by
  have flag : ∀ k : Option QTNode,
      ((match k with | none => false | some c => !c.leaf) = true) ↔
        ∃ c, k = some c ∧ c.leaf = false := by
    intro k; cases k <;> simp
  cases m with
  | mk ce sz b l k0 k1 k2 k3 =>
    simp only [hasStemChild, QTNode.childList, List.any_cons, List.any_nil,
      Bool.or_eq_true, Bool.false_eq_true, or_false]
    rw [flag k0, flag k1, flag k2, flag k3]
    constructor
    · rintro (⟨c, hc, hcl⟩ | ⟨c, hc, hcl⟩ | ⟨c, hc, hcl⟩ | ⟨c, hc, hcl⟩)
      · exact ⟨0, c, by omega, hc, hcl⟩
      · exact ⟨1, c, by omega, hc, hcl⟩
      · exact ⟨2, c, by omega, hc, hcl⟩
      · exact ⟨3, c, by omega, hc, hcl⟩
    · rintro ⟨q, c, hq, hc, hcl⟩
      match q, hq with
      | 0, _ => exact Or.inl ⟨c, hc, hcl⟩
      | 1, _ => exact Or.inr (Or.inl ⟨c, hc, hcl⟩)
      | 2, _ => exact Or.inr (Or.inr (Or.inl ⟨c, hc, hcl⟩))
      | 3, _ => exact Or.inr (Or.inr (Or.inr ⟨c, hc, hcl⟩))

/-- Bucket of an optional child. -/
def obucket : Option QTNode → List Point
  | none => []
  | some c => c.bucket

theorem numKeys_eq (m : QTNode) :
    numKeys m = (obucket (m.child 0)).length + (obucket (m.child 1)).length +
      (obucket (m.child 2)).length + (obucket (m.child 3)).length := by
  cases m with
  | mk ce sz b l k0 k1 k2 k3 =>
    cases k0 <;> cases k1 <;> cases k2 <;> cases k3 <;>
      simp [numKeys, QTNode.childList, QTNode.child, obucket] <;> omega

theorem absorbChildren_center (m : QTNode) : (absorbChildren m).center = m.center := by
  cases m; rfl

theorem absorbChildren_size (m : QTNode) : (absorbChildren m).size = m.size := by
  cases m; rfl

theorem absorbChildren_leaf (m : QTNode) : (absorbChildren m).leaf = true := by
  cases m; rfl

theorem absorbChildren_child (m : QTNode) (q : Nat) : (absorbChildren m).child q = none := by
  cases m
  match q with
  | 0 | 1 | 2 | 3 => rfl
  | (q + 4) => exact child_eq_none_of_ge _ _ (by omega)

theorem absorbChildren_bucket (m : QTNode) :
    (absorbChildren m).bucket =
      m.bucket ++ obucket (m.child 0) ++ obucket (m.child 1) ++
        obucket (m.child 2) ++ obucket (m.child 3) := by
  cases m with
  | mk ce sz b l k0 k1 k2 k3 =>
    cases k0 <;> cases k1 <;> cases k2 <;> cases k3 <;>
      simp [absorbChildren, QTNode.bucket, QTNode.child, obucket]

theorem absorbChildren_stored (m : QTNode)
    (h : ∀ q c, m.child q = some c → c.stored = c.bucket) :
    (absorbChildren m).stored = m.stored := by
  have hb := absorbChildren_bucket m
  have hsteq := stored_eq (absorbChildren m)
  rw [childrenStored_of_no_children _ (absorbChildren_child m), List.append_nil] at hsteq
  rw [hsteq, hb, stored_eq m]
  unfold childrenStored
  have hob : ∀ q, obucket (m.child q) = ostored (m.child q) := by
    intro q
    cases hc : m.child q with
    | none => rfl
    | some c => simp [obucket, ostored, h q c hc]
  rw [hob 0, hob 1, hob 2, hob 3]
  simp [List.append_assoc]

theorem removePoint_leaf_mem (cap : Nat) (v : Point) (n : QTNode)
    (hl : n.leaf = true) (hv : v ∈ n.bucket) :
    removePoint cap v n = some (n.setBucket (n.bucket.erase v)) := by
  rw [removePoint, if_pos hl, if_pos hv]

theorem removePoint_leaf_not_mem (cap : Nat) (v : Point) (n : QTNode)
    (hl : n.leaf = true) (hv : v ∉ n.bucket) :
    removePoint cap v n = none := by
  rw [removePoint, if_pos hl, if_neg hv]

theorem removePoint_stem_none (cap : Nat) (v : Point) (n : QTNode)
    (hl : n.leaf = false) (hc : n.child (quadrant n.center v) = none) :
    removePoint cap v n = none := by
  rw [removePoint, if_neg (by simp [hl])]
  split
  · rfl
  · next c heq => rw [hc] at heq; cases heq

theorem removePoint_stem_some (cap : Nat) (v : Point) (n c : QTNode)
    (hl : n.leaf = false) (hc : n.child (quadrant n.center v) = some c) :
    removePoint cap v n =
      match removePoint cap v c with
      | none => none
      | some c2 => some (reduceNode cap (n.setChild (quadrant n.center v) (some c2))) := by
  rw [removePoint, if_neg (by simp [hl])]
  split
  · next heq => rw [hc] at heq; cases heq
  · next c2 heq =>
      rw [hc] at heq
      injection heq with h
      subst h
      rfl

theorem containsPoint_leaf (v : Point) (n : QTNode) (hl : n.leaf = true) :
    containsPoint v n = decide (v ∈ n.bucket) := by
  rw [containsPoint, if_pos hl]

theorem containsPoint_stem_none (v : Point) (n : QTNode) (hl : n.leaf = false)
    (hc : n.child (quadrant n.center v) = none) :
    containsPoint v n = false := by
  rw [containsPoint, if_neg (by simp [hl])]
  split
  · rfl
  · next c heq => rw [hc] at heq; cases heq

theorem containsPoint_stem_some (v : Point) (n c : QTNode) (hl : n.leaf = false)
    (hc : n.child (quadrant n.center v) = some c) :
    containsPoint v n = containsPoint v c := by
  rw [containsPoint, if_neg (by simp [hl])]
  split
  · next heq => rw [hc] at heq; cases heq
  · next c2 heq =>
      rw [hc] at heq
      injection heq with h
      subst h
      rfl

theorem findLeaf_leaf (v : Point) (n : QTNode) (hl : n.leaf = true) :
    findLeaf v n = some n := by
  rw [findLeaf, if_pos hl]

theorem findLeaf_stem_none (v : Point) (n : QTNode) (hl : n.leaf = false)
    (hc : n.child (quadrant n.center v) = none) :
    findLeaf v n = none := by
  rw [findLeaf, if_neg (by simp [hl])]
  split
  · rfl
  · next c heq => rw [hc] at heq; cases heq

theorem findLeaf_stem_some (v : Point) (n c : QTNode) (hl : n.leaf = false)
    (hc : n.child (quadrant n.center v) = some c) :
    findLeaf v n = findLeaf v c := by
  rw [findLeaf, if_neg (by simp [hl])]
  split
  · next heq => rw [hc] at heq; cases heq
  · next c2 heq =>
      rw [hc] at heq
      injection heq with h
      subst h
      rfl

/-- `reduceNode` keeps or creates a well-formed node: given a node whose
own stem fields and child slots are in order (the state of an ancestor
on the removal path right after its subtree shrank), the result is
well-formed, has the same region, and stores the same points. -/
theorem reduceNode_spec (cap : Nat) (m : QTNode)
    (hb : m.bucket = []) (hl : m.leaf = false) (hs : SlotsWF cap m)
    (hex : ∃ q, q < 4 ∧ (m.child q).isSome = true) :
    wf cap (reduceNode cap m) = true ∧
    (reduceNode cap m).center = m.center ∧ (reduceNode cap m).size = m.size ∧
    ∀ x, x ∈ (reduceNode cap m).stored ↔ x ∈ m.stored := by
  have hnodup : m.stored.Nodup := by
    refine stored_nodup_of cap m.count m le_rfl (by rw [hb]; exact List.nodup_nil) ?_ hs
    intro x hx
    rw [hb] at hx
    cases hx
  unfold reduceNode
  by_cases h1 : hasStemChild m = true
  · rw [if_pos h1]
    obtain ⟨q, c, hq4, hc, hcl⟩ := (hasStemChild_iff m).1 h1
    have hwfc := (hs q c hc).2
    obtain ⟨-, -, hst', -⟩ := (wf_iff_acc cap c).1 hwfc
    obtain ⟨-, -, hne⟩ := hst' hcl
    obtain ⟨y, hy⟩ := List.exists_mem_of_ne_nil c.stored hne
    refine ⟨?_, rfl, rfl, fun x => Iff.rfl⟩
    rw [wf_iff_acc]
    refine ⟨by rw [hb]; exact List.nodup_nil, ?_, ?_, hs⟩
    · intro htrue; rw [hl] at htrue; cases htrue
    · intro _
      exact ⟨hb, hex, List.ne_nil_of_mem (mem_stored_of_child m q c y hc hy)⟩
  · rw [if_neg h1]
    have hleaves : ∀ q c, m.child q = some c → c.leaf = true := by
      intro q c hc
      by_contra hcl
      exact h1 ((hasStemChild_iff m).2
        ⟨q, c, child_some_lt m q c hc, hc, by revert hcl; cases c.leaf <;> simp⟩)
    have hstored_buck : ∀ q c, m.child q = some c → c.stored = c.bucket :=
      fun q c hc => stored_of_leaf cap c (hs q c hc).2 (hleaves q c hc)
    by_cases h2 : numKeys m ≤ cap
    · rw [if_pos h2]
      have hsteq := absorbChildren_stored m hstored_buck
      have hstored_acc : (absorbChildren m).stored = (absorbChildren m).bucket := by
        rw [stored_eq, childrenStored_of_no_children _ (absorbChildren_child m),
          List.append_nil]
      refine ⟨?_, absorbChildren_center m, absorbChildren_size m, fun x => by rw [hsteq]⟩
      rw [wf_iff_acc]
      refine ⟨?_, ?_, ?_, ?_⟩
      · rw [← hstored_acc, hsteq]; exact hnodup
      · intro _
        constructor
        · have : (absorbChildren m).bucket.length = m.bucket.length + numKeys m := by
            rw [absorbChildren_bucket, numKeys_eq]
            simp [List.length_append]
            omega
          rw [this, hb]
          simpa using h2
        · exact fun q => absorbChildren_child m q
      · intro hfalse
        rw [absorbChildren_leaf] at hfalse
        cases hfalse
      · intro q c hc
        rw [absorbChildren_child] at hc
        cases hc
    · rw [if_neg h2]
      refine ⟨?_, rfl, rfl, fun x => Iff.rfl⟩
      rw [wf_iff_acc]
      refine ⟨by rw [hb]; exact List.nodup_nil, ?_, ?_, hs⟩
      · intro htrue; rw [hl] at htrue; cases htrue
      · intro _
        refine ⟨hb, hex, ?_⟩
        have hpos : 0 < numKeys m := by omega
        rw [numKeys_eq] at hpos
        have hone : 0 < (obucket (m.child 0)).length ∨ 0 < (obucket (m.child 1)).length ∨
            0 < (obucket (m.child 2)).length ∨ 0 < (obucket (m.child 3)).length := by
          omega
        have pick : ∀ q, 0 < (obucket (m.child q)).length → m.stored ≠ [] := by
          intro q hlen
          cases hc : m.child q with
          | none => rw [hc] at hlen; simp [obucket] at hlen
          | some c =>
            rw [hc] at hlen
            simp only [obucket] at hlen
            obtain ⟨y, hy⟩ := List.exists_mem_of_ne_nil c.bucket
              (List.length_pos.1 hlen)
            have hyst : y ∈ c.stored := by rw [mem_stored_iff]; exact Or.inl hy
            exact List.ne_nil_of_mem (mem_stored_of_child m q c y hc hyst)
        rcases hone with h | h | h | h
        · exact pick 0 h
        · exact pick 1 h
        · exact pick 2 h
        · exact pick 3 h

/-- A successful removal preserves the invariant and the region, and
deletes exactly the removed point from the stored set. -/
theorem removePoint_spec (cap : Nat) : ∀ cnt (n : QTNode), n.count ≤ cnt →
    wf cap n = true → ∀ v n', removePoint cap v n = some n' →
      wf cap n' = true ∧ n'.center = n.center ∧ n'.size = n.size ∧
      ∀ x, x ∈ n'.stored ↔ x ∈ n.stored ∧ x ≠ v := by
  intro cnt
  induction cnt with
  | zero =>
    intro n hcnt
    have := count_pos n
    omega
  | succ cnt ih =>
    intro n hcnt hwf v n' h
    obtain ⟨hnd, hlf, hst, hs⟩ := (wf_iff_acc cap n).1 hwf
    cases hl : n.leaf with
    | true =>
      obtain ⟨hlen, hnone⟩ := hlf hl
      by_cases hv : v ∈ n.bucket
      · rw [removePoint_leaf_mem cap v n hl hv] at h
        injection h with h
        subst h
        refine ⟨?_, setBucket_center .., setBucket_size .., ?_⟩
        · rw [wf_iff_acc]
          refine ⟨?_, ?_, ?_, ?_⟩
          · rw [setBucket_bucket]; exact hnd.erase v
          · intro _
            rw [setBucket_bucket]
            refine ⟨le_trans (List.length_erase_le _ _) hlen, ?_⟩
            intro q
            rw [setBucket_child]
            exact hnone q
          · intro hfalse
            rw [setBucket_leaf, hl] at hfalse
            cases hfalse
          · intro q c hqc
            rw [setBucket_child, hnone q] at hqc
            cases hqc
        · intro x
          rw [mem_stored_iff, setBucket_bucket, childrenStored_setBucket,
            childrenStored_of_no_children n hnone, stored_of_leaf cap n hwf hl]
          simp only [List.not_mem_nil, or_false]
          rw [List.Nodup.mem_erase_iff hnd]
          tauto
      · rw [removePoint_leaf_not_mem cap v n hl hv] at h
        cases h
    | false =>
      obtain ⟨hb, -, -⟩ := hst hl
      cases hc : n.child (quadrant n.center v) with
      | none =>
        rw [removePoint_stem_none cap v n hl hc] at h
        cases h
      | some c =>
        rw [removePoint_stem_some cap v n c hl hc] at h
        cases hrc : removePoint cap v c with
        | none => rw [hrc] at h; simp at h
        | some c2 =>
          rw [hrc] at h
          simp only [Option.some.injEq] at h
          subst h
          have hclt := child_count_lt n _ c hc
          obtain ⟨hokc, hwfc⟩ := hs _ c hc
          obtain ⟨hwf2, hce2, hsz2, hm2⟩ := ih c (by omega) hwfc v c2 hrc
          obtain ⟨hcec, hszc, hroutc⟩ := (slotOK_iff n.center n.size _ c).1 hokc
          have hq4 := quadrant_lt_four n.center v
          set m := n.setChild (quadrant n.center v) (some c2) with hm
          have hmb : m.bucket = [] := by rw [hm, setChild_bucket, hb]
          have hml : m.leaf = false := by rw [hm, setChild_leaf, hl]
          have hms : SlotsWF cap m := by
            intro q' c' hq'c
            rw [hm, setChild_center, setChild_size]
            by_cases hq' : q' = quadrant n.center v
            · subst hq'
              rw [hm, setChild_child_self n _ _ hq4] at hq'c
              injection hq'c with he
              subst he
              refine ⟨?_, hwf2⟩
              rw [slotOK_iff]
              refine ⟨hce2.trans hcec, hsz2.trans hszc, ?_⟩
              intro p hp
              exact hroutc p ((hm2 p).1 hp).1
            · rw [hm, setChild_child_other n _ q' _ hq'] at hq'c
              exact hs q' c' hq'c
          have hmex : ∃ q, q < 4 ∧ (m.child q).isSome = true := by
            refine ⟨quadrant n.center v, hq4, ?_⟩
            rw [hm, setChild_child_self n _ _ hq4]
            rfl
          obtain ⟨hwfr, hcer, hszr, hmr⟩ := reduceNode_spec cap m hmb hml hms hmex
          refine ⟨hwfr, ?_, ?_, ?_⟩
          · rw [hcer, hm, setChild_center]
          · rw [hszr, hm, setChild_size]
          · intro x
            rw [hmr x, mem_stored_iff, hmb]
            simp only [List.not_mem_nil, false_or]
            rw [hm]
            rw [childrenStored_setChild n _ _ hq4 x]
            constructor
            · rintro (hx | ⟨q', hq'4, hq'ne, hx⟩)
              · rw [show ostored (some c2) = c2.stored from rfl] at hx
                obtain ⟨hxc, hxne⟩ := (hm2 x).1 hx
                exact ⟨mem_stored_of_child n _ c x hc hxc, hxne⟩
              · obtain ⟨c', hc', hxc'⟩ := (mem_ostored _ x).1 hx
                have hokc' := ((slotOK_iff n.center n.size q' c').1 (hs q' c' hc').1).2.2
                refine ⟨mem_stored_of_child n q' c' x hc' hxc', ?_⟩
                intro hxv
                subst hxv
                exact hq'ne (hokc' x hxc').symm
            · rintro ⟨hx, hxne⟩
              rw [mem_stored_iff, hb] at hx
              simp only [List.not_mem_nil, false_or] at hx
              obtain ⟨q', c', hq'4, hc', hxc'⟩ := (mem_childrenStored_iff n x).1 hx
              by_cases hq' : q' = quadrant n.center v
              · subst hq'
                rw [hc] at hc'
                injection hc' with he
                subst he
                exact Or.inl (by
                  rw [show ostored (some c2) = c2.stored from rfl]
                  exact (hm2 x).2 ⟨hxc', hxne⟩)
              · exact Or.inr ⟨q', hq'4, hq', (mem_ostored _ x).2 ⟨c', hc', hxc'⟩⟩

/-- `remove` returns false exactly when `contains` is false (and then the
tree is unchanged: the model returns no new tree). -/
theorem removePoint_none_iff (cap : Nat) : ∀ cnt (n : QTNode), n.count ≤ cnt →
    ∀ v, (removePoint cap v n = none ↔ containsPoint v n = false) := by
  intro cnt
  induction cnt with
  | zero =>
    intro n hcnt
    have := count_pos n
    omega
  | succ cnt ih =>
    intro n hcnt v
    cases hl : n.leaf with
    | true =>
      by_cases hv : v ∈ n.bucket
      · rw [removePoint_leaf_mem cap v n hl hv, containsPoint_leaf v n hl]
        simp [hv]
      · rw [removePoint_leaf_not_mem cap v n hl hv, containsPoint_leaf v n hl]
        simp [hv]
    | false =>
      cases hc : n.child (quadrant n.center v) with
      | none =>
        rw [removePoint_stem_none cap v n hl hc, containsPoint_stem_none v n hl hc]
        simp
      | some c =>
        rw [removePoint_stem_some cap v n c hl hc, containsPoint_stem_some v n c hl hc]
        have hclt := child_count_lt n _ c hc
        rw [← ih c (by omega) v]
        cases hrc : removePoint cap v c <;> simp

/-- Under the invariant, `contains` answers membership in the stored set. -/
theorem containsPoint_iff_stored (cap : Nat) : ∀ cnt (n : QTNode), n.count ≤ cnt →
    wf cap n = true → ∀ v, (containsPoint v n = true ↔ v ∈ n.stored) := by
  intro cnt
  induction cnt with
  | zero =>
    intro n hcnt
    have := count_pos n
    omega
  | succ cnt ih =>
    intro n hcnt hwf v
    obtain ⟨hnd, hlf, hst, hs⟩ := (wf_iff_acc cap n).1 hwf
    cases hl : n.leaf with
    | true =>
      rw [containsPoint_leaf v n hl, stored_of_leaf cap n hwf hl]
      simp
    | false =>
      obtain ⟨hb, -, -⟩ := hst hl
      cases hc : n.child (quadrant n.center v) with
      | none =>
        rw [containsPoint_stem_none v n hl hc]
        simp only [Bool.false_eq_true, false_iff]
        intro hv
        rw [mem_stored_iff, hb] at hv
        simp only [List.not_mem_nil, false_or] at hv
        obtain ⟨q', c', hq'4, hc', hvc'⟩ := (mem_childrenStored_iff n v).1 hv
        have hroute := ((slotOK_iff n.center n.size q' c').1 (hs q' c' hc').1).2.2 v hvc'
        rw [← hroute] at hc'
        rw [hc] at hc'
        cases hc'
      | some c =>
        rw [containsPoint_stem_some v n c hl hc]
        have hclt := child_count_lt n _ c hc
        rw [ih c (by omega) (hs _ c hc).2 v]
        constructor
        · exact fun hv => mem_stored_of_child n _ c v hc hv
        · intro hv
          rw [mem_stored_iff, hb] at hv
          simp only [List.not_mem_nil, false_or] at hv
          obtain ⟨q', c', hq'4, hc', hvc'⟩ := (mem_childrenStored_iff n v).1 hv
          have hroute := ((slotOK_iff n.center n.size q' c').1 (hs q' c' hc').1).2.2 v hvc'
          rw [← hroute] at hc'
          rw [hc] at hc'
          injection hc' with he
          subst he
          exact hvc'

/-! ## Reachable tree states

`Reaches cap P t0 t`: starting from `t0`, the tree `t` is produced by a
sequence of completed `add` calls (each adding a point satisfying `P`)
and successful `remove` calls.  Calls that return unchanged state
(`remove` returning false, an `add` that never completes) do not change
the tree and need no step. -/
inductive Reaches (cap : Nat) (P : Point → Prop) (t0 : QTNode) : QTNode → Prop where
  | refl : Reaches cap P t0 t0
  | add {t t' : QTNode} {v : Point} {fuel : Nat} :
      Reaches cap P t0 t → P v → insertPoint cap fuel v t = some t' →
      Reaches cap P t0 t'
  | rem {t t' : QTNode} {v : Point} :
      Reaches cap P t0 t → removePoint cap v t = some t' →
      Reaches cap P t0 t'

theorem reaches_wf (cap : Nat) (P : Point → Prop) (t0 t : QTNode)
    (h : Reaches cap P t0 t) (h0 : wf cap t0 = true) : wf cap t = true := by
  induction h with
  | refl => exact h0
  | add _ _ hins ih => exact insertPoint_wf cap _ _ _ _ ih hins
  | rem _ hrem ih => exact (removePoint_spec cap _ _ le_rfl ih _ _ hrem).1

theorem reduceNode_center (cap : Nat) (m : QTNode) :
    (reduceNode cap m).center = m.center := by
  unfold reduceNode
  split_ifs <;> simp [absorbChildren_center]

theorem reduceNode_size (cap : Nat) (m : QTNode) :
    (reduceNode cap m).size = m.size := by
  unfold reduceNode
  split_ifs <;> simp [absorbChildren_size]

/-- Removal never changes a node's region, invariant or not. -/
theorem removePoint_region (cap : Nat) : ∀ cnt (n : QTNode), n.count ≤ cnt →
    ∀ v n', removePoint cap v n = some n' →
      n'.center = n.center ∧ n'.size = n.size := by
  intro cnt
  induction cnt with
  | zero =>
    intro n hcnt
    have := count_pos n
    omega
  | succ cnt ih =>
    intro n hcnt v n' h
    cases hl : n.leaf with
    | true =>
      by_cases hv : v ∈ n.bucket
      · rw [removePoint_leaf_mem cap v n hl hv] at h
        injection h with h
        subst h
        exact ⟨setBucket_center .., setBucket_size ..⟩
      · rw [removePoint_leaf_not_mem cap v n hl hv] at h
        cases h
    | false =>
      cases hc : n.child (quadrant n.center v) with
      | none =>
        rw [removePoint_stem_none cap v n hl hc] at h
        cases h
      | some c =>
        rw [removePoint_stem_some cap v n c hl hc] at h
        cases hrc : removePoint cap v c with
        | none => rw [hrc] at h; simp at h
        | some c2 =>
          rw [hrc] at h
          simp only [Option.some.injEq] at h
          subst h
          constructor
          · rw [reduceNode_center, setChild_center]
          · rw [reduceNode_size, setChild_size]

theorem reaches_region (cap : Nat) (P : Point → Prop) (t0 t : QTNode)
    (h : Reaches cap P t0 t) : t.center = t0.center ∧ t.size = t0.size := by
  induction h with
  | refl => exact ⟨rfl, rfl⟩
  | add _ _ hins ih =>
    obtain ⟨hce, hsz, -⟩ := insertPoint_effect _ _ _ _ _ hins
    exact ⟨hce.trans ih.1, hsz.trans ih.2⟩
  | rem _ hrem ih =>
    obtain ⟨hce, hsz⟩ := removePoint_region _ _ _ le_rfl _ _ hrem
    exact ⟨hce.trans ih.1, hsz.trans ih.2⟩

theorem reaches_stored (cap : Nat) (P : Point → Prop) (t0 t : QTNode)
    (h : Reaches cap P t0 t) (h0 : wf cap t0 = true) (R : Point → Prop)
    (hR0 : ∀ x ∈ t0.stored, R x) (hRP : ∀ v, P v → R v) :
    ∀ x ∈ t.stored, R x := by
  induction h with
  | refl => exact hR0
  | add hr hP hins ih =>
    intro x hx
    obtain ⟨-, -, hm⟩ := insertPoint_effect _ _ _ _ _ hins
    rcases (hm x).1 hx with hx' | rfl
    · exact ih _ hx'
    · exact hRP _ hP
  | rem hr hrem ih =>
    intro x hx
    have hwf := reaches_wf cap P t0 _ hr h0
    obtain ⟨-, -, -, hm⟩ := removePoint_spec cap _ _ le_rfl hwf _ _ hrem
    exact ih _ ((hm x).1 hx).1

/-! ## Preorder traversal facts -/

/-- Preorder list of an optional subtree. -/
def opre : Option QTNode → List QTNode
  | none => []
  | some c => c.preorder

theorem preorder_eq (n : QTNode) :
    n.preorder = n :: (opre (n.child 0) ++ opre (n.child 1) ++
      opre (n.child 2) ++ opre (n.child 3)) := by
  cases n with
  | mk ce sz b l k0 k1 k2 k3 =>
    cases k0 <;> cases k1 <;> cases k2 <;> cases k3 <;>
      simp [QTNode.preorder, QTNode.child, opre]

theorem mem_opre (k : Option QTNode) (m : QTNode) :
    m ∈ opre k ↔ ∃ c, k = some c ∧ m ∈ c.preorder := by
  cases k <;> simp [opre]

theorem mem_preorder_iff (n m : QTNode) :
    m ∈ n.preorder ↔ m = n ∨
      ∃ q c, q < 4 ∧ n.child q = some c ∧ m ∈ c.preorder := by
  rw [preorder_eq]
  simp only [List.mem_cons, List.mem_append, mem_opre]
  constructor
  · rintro (rfl | (((⟨c, hc, hm⟩ | ⟨c, hc, hm⟩) | ⟨c, hc, hm⟩) | ⟨c, hc, hm⟩))
    · exact Or.inl rfl
    · exact Or.inr ⟨0, c, by omega, hc, hm⟩
    · exact Or.inr ⟨1, c, by omega, hc, hm⟩
    · exact Or.inr ⟨2, c, by omega, hc, hm⟩
    · exact Or.inr ⟨3, c, by omega, hc, hm⟩
  · rintro (rfl | ⟨q, c, hq, hc, hm⟩)
    · exact Or.inl rfl
    · right
      match q, hq with
      | 0, _ => exact Or.inl (Or.inl (Or.inl ⟨c, hc, hm⟩))
      | 1, _ => exact Or.inl (Or.inl (Or.inr ⟨c, hc, hm⟩))
      | 2, _ => exact Or.inl (Or.inr ⟨c, hc, hm⟩)
      | 3, _ => exact Or.inr ⟨c, hc, hm⟩

theorem self_mem_preorder (n : QTNode) : n ∈ n.preorder := by
  rw [mem_preorder_iff]; exact Or.inl rfl

theorem wf_of_mem_preorder (cap : Nat) : ∀ cnt (n : QTNode), n.count ≤ cnt →
    wf cap n = true → ∀ m ∈ n.preorder, wf cap m = true := by
  intro cnt
  induction cnt with
  | zero =>
    intro n hcnt
    have := count_pos n
    omega
  | succ cnt ih =>
    intro n hcnt hwf m hm
    rcases (mem_preorder_iff n m).1 hm with rfl | ⟨q, c, hq, hc, hmc⟩
    · exact hwf
    · have hclt := child_count_lt n q c hc
      exact ih c (by omega) (wf_slots cap n hwf q c hc).2 m hmc

theorem stored_of_mem_preorder : ∀ cnt (n : QTNode), n.count ≤ cnt →
    ∀ m ∈ n.preorder, ∀ x ∈ m.stored, x ∈ n.stored := by
  intro cnt
  induction cnt with
  | zero =>
    intro n hcnt
    have := count_pos n
    omega
  | succ cnt ih =>
    intro n hcnt m hm x hx
    rcases (mem_preorder_iff n m).1 hm with rfl | ⟨q, c, hq, hc, hmc⟩
    · exact hx
    · have hclt := child_count_lt n q c hc
      exact mem_stored_of_child n q c x hc (ih c (by omega) m hmc x hx)

/-! ## Region geometry -/

/-- `QuadTreeNode.region()`: the closed square `[center - size, center + size]`. -/
def QTNode.region (n : QTNode) : Point × Point :=
  (⟨n.center.x - n.size.x, n.center.y - n.size.y⟩,
   ⟨n.center.x + n.size.x, n.center.y + n.size.y⟩)

/-- All points stored below `n` lie in `n`'s own region. -/
def AllIn (n : QTNode) : Prop :=
  ∀ p ∈ n.stored, point_in_region p n.region.1 n.region.2 = true

theorem point_in_region_iff (p a b : Point) :
    point_in_region p a b = true ↔
      a.x ≤ p.x ∧ p.x ≤ b.x ∧ a.y ≤ p.y ∧ p.y ≤ b.y := by
  simp [point_in_region, and_assoc]

/-- Stepping into the routed child keeps a point inside the region. -/
theorem child_region_step (ce sz : Point) (c : QTNode) (p : Point)
    (hcen : c.center = child_center ce sz (quadrant ce p))
    (hsz : c.size = Point.mk (sz.x / 2) (sz.y / 2))
    (hp : point_in_region p ⟨ce.x - sz.x, ce.y - sz.y⟩ ⟨ce.x + sz.x, ce.y + sz.y⟩ = true) :
    point_in_region p c.region.1 c.region.2 = true := by
  rw [point_in_region_iff] at hp
  obtain ⟨h1, h2, h3, h4⟩ := hp
  dsimp only at h1 h2 h3 h4
  by_cases hx : ce.x ≤ p.x <;> by_cases hy : ce.y ≤ p.y
  · have hq : quadrant ce p = 3 := by unfold quadrant; rw [if_pos hx, if_pos hy]
    rw [hq] at hcen
    rw [show child_center ce sz 3 =
      Point.mk (ce.x + sz.x / 2) (ce.y + sz.y / 2) by simp [child_center]] at hcen
    rw [QTNode.region, hcen, hsz, point_in_region_iff]
    dsimp only
    exact ⟨by linarith, by linarith, by linarith, by linarith⟩
  · have hy' := not_le.1 hy
    have hq : quadrant ce p = 2 := by unfold quadrant; rw [if_pos hx, if_neg hy]
    rw [hq] at hcen
    rw [show child_center ce sz 2 =
      Point.mk (ce.x + sz.x / 2) (ce.y - sz.y / 2) by simp [child_center]] at hcen
    rw [QTNode.region, hcen, hsz, point_in_region_iff]
    dsimp only
    exact ⟨by linarith, by linarith, by linarith, by linarith⟩
  · have hx' := not_le.1 hx
    have hq : quadrant ce p = 1 := by unfold quadrant; rw [if_neg hx, if_pos hy]
    rw [hq] at hcen
    rw [show child_center ce sz 1 =
      Point.mk (ce.x - sz.x / 2) (ce.y + sz.y / 2) by simp [child_center]] at hcen
    rw [QTNode.region, hcen, hsz, point_in_region_iff]
    dsimp only
    exact ⟨by linarith, by linarith, by linarith, by linarith⟩
  · have hx' := not_le.1 hx
    have hy' := not_le.1 hy
    have hq : quadrant ce p = 0 := by unfold quadrant; rw [if_neg hx, if_neg hy]
    rw [hq] at hcen
    rw [show child_center ce sz 0 =
      Point.mk (ce.x - sz.x / 2) (ce.y - sz.y / 2) by simp [child_center]] at hcen
    rw [QTNode.region, hcen, hsz, point_in_region_iff]
    dsimp only
    exact ⟨by linarith, by linarith, by linarith, by linarith⟩

theorem allIn_child (cap : Nat) (n c : QTNode) (q : Nat)
    (hwf : wf cap n = true) (hall : AllIn n) (hc : n.child q = some c) :
    AllIn c := by
  intro p hp
  have hpn : p ∈ n.stored := mem_stored_of_child n q c p hc hp
  obtain ⟨hcen, hszc, hroute⟩ := (slotOK_iff n.center n.size q c).1
    (wf_slots cap n hwf q c hc).1
  rw [← hroute p hp] at hcen
  exact child_region_step n.center n.size c p hcen hszc (hall p hpn)

/-- Every point stored in a descendant's bucket that lies inside the
whole tree's region also lies inside that descendant's region. -/
theorem bucket_in_node_region (cap : Nat) : ∀ cnt (n : QTNode), n.count ≤ cnt →
    wf cap n = true → AllIn n → ∀ m ∈ n.preorder, AllIn m := by
  intro cnt
  induction cnt with
  | zero =>
    intro n hcnt
    have := count_pos n
    omega
  | succ cnt ih =>
    intro n hcnt hwf hall m hm
    rcases (mem_preorder_iff n m).1 hm with rfl | ⟨q, c, hq, hc, hmc⟩
    · exact hall
    · have hclt := child_count_lt n q c hc
      exact ih c (by omega) (wf_slots cap n hwf q c hc).2
        (allIn_child cap n c q hwf hall hc) m hmc

/-! ## Range search -/

theorem enclosure_status_eq (ce sz minXY maxXY : Point) :
    enclosure_status ce sz minXY maxXY =
      if ce.x - sz.x > maxXY.x ∨ ce.x + sz.x < minXY.x ∨
          ce.y - sz.y > maxXY.y ∨ ce.y + sz.y < minXY.y then 0
      else if (point_in_region ⟨ce.x - sz.x, ce.y - sz.y⟩ minXY maxXY).toNat +
          (point_in_region ⟨ce.x - sz.x, ce.y + sz.y⟩ minXY maxXY).toNat +
          (point_in_region ⟨ce.x + sz.x, ce.y - sz.y⟩ minXY maxXY).toNat +
          (point_in_region ⟨ce.x + sz.x, ce.y + sz.y⟩ minXY maxXY).toNat = 4 then 2
      else 1 := rfl

theorem status_cases (ce sz minXY maxXY : Point) :
    enclosure_status ce sz minXY maxXY = 0 ∨
    enclosure_status ce sz minXY maxXY = 1 ∨
    enclosure_status ce sz minXY maxXY = 2 := by
  rw [enclosure_status_eq]
  split_ifs <;> simp

/-- A node classified OUTSIDE has no region point inside the rectangle. -/
theorem status_zero_disjoint (ce sz minXY maxXY : Point)
    (h : enclosure_status ce sz minXY maxXY = 0) (p : Point)
    (hp : point_in_region p ⟨ce.x - sz.x, ce.y - sz.y⟩ ⟨ce.x + sz.x, ce.y + sz.y⟩ = true) :
    ¬point_in_region p minXY maxXY = true := by
  intro hin
  rw [point_in_region_iff] at hp hin
  dsimp only at hp
  rw [enclosure_status_eq] at h
  split_ifs at h with hout
  · rcases hout with ho | ho | ho | ho <;> linarith [hp.1, hp.2.1, hp.2.2.1, hp.2.2.2,
      hin.1, hin.2.1, hin.2.2.1, hin.2.2.2]

/-- A node classified CONTAINED has its whole region inside the rectangle. -/
theorem status_two_sub (ce sz minXY maxXY : Point)
    (h : enclosure_status ce sz minXY maxXY = 2) (p : Point)
    (hp : point_in_region p ⟨ce.x - sz.x, ce.y - sz.y⟩ ⟨ce.x + sz.x, ce.y + sz.y⟩ = true) :
    point_in_region p minXY maxXY = true := by
  rw [enclosure_status_eq] at h
  split_ifs at h with hout hall
  · have corner : ∀ b : Bool, b.toNat = 1 → b = true := by intro b; cases b <;> simp
    have tle : ∀ b : Bool, b.toNat ≤ 1 := by intro b; cases b <;> simp
    have t1 := tle (point_in_region ⟨ce.x - sz.x, ce.y - sz.y⟩ minXY maxXY)
    have t2 := tle (point_in_region ⟨ce.x - sz.x, ce.y + sz.y⟩ minXY maxXY)
    have t3 := tle (point_in_region ⟨ce.x + sz.x, ce.y - sz.y⟩ minXY maxXY)
    have t4 := tle (point_in_region ⟨ce.x + sz.x, ce.y + sz.y⟩ minXY maxXY)
    have hc1 := corner _ (show (point_in_region ⟨ce.x - sz.x, ce.y - sz.y⟩ minXY maxXY).toNat = 1 by omega)
    have hc4 := corner _ (show (point_in_region ⟨ce.x + sz.x, ce.y + sz.y⟩ minXY maxXY).toNat = 1 by omega)
    rw [point_in_region_iff] at hc1 hc4 hp ⊢
    dsimp only at hc1 hc4 hp
    obtain ⟨a1, a2, a3, a4⟩ := hc1
    obtain ⟨b1, b2, b3, b4⟩ := hc4
    obtain ⟨c1, c2, c3, c4⟩ := hp
    exact ⟨by linarith, by linarith, by linarith, by linarith⟩
  · cases h

/-- The result accumulator of an optional subtree harvest. -/
def oadd (k : Option QTNode) (results : List Point) : List Point :=
  match k with
  | none => results
  | some c => add_all_points_to_results c results

theorem add_all_points_acc (n : QTNode) (results : List Point) :
    add_all_points_to_results n results =
      if n.leaf then results ++ n.bucket
      else oadd (n.child 3) (oadd (n.child 2) (oadd (n.child 1) (oadd (n.child 0) results))) := by
  cases n with
  | mk ce sz b l k0 k1 k2 k3 =>
    cases l <;> cases k0 <;> cases k1 <;> cases k2 <;> cases k3 <;> rfl

/-- `add_all_points_to_results` harvests exactly the stored points of a
well-formed subtree (in order, appended to the accumulator). -/
theorem add_all_eq (cap : Nat) : ∀ cnt (n : QTNode), n.count ≤ cnt →
    wf cap n = true → ∀ results,
      add_all_points_to_results n results = results ++ n.stored := by
  intro cnt
  induction cnt with
  | zero =>
    intro n hcnt
    have := count_pos n
    omega
  | succ cnt ih =>
    intro n hcnt hwf results
    obtain ⟨hnd, hlf, hst, hs⟩ := (wf_iff_acc cap n).1 hwf
    rw [add_all_points_acc]
    cases hl : n.leaf with
    | true =>
      rw [if_pos rfl, stored_of_leaf cap n hwf hl]
    | false =>
      rw [if_neg (by simp)]
      have step : ∀ q rs, oadd (n.child q) rs = rs ++ ostored (n.child q) := by
        intro q rs
        cases hc : n.child q with
        | none => simp [oadd, ostored]
        | some c =>
          have hclt := child_count_lt n q c hc
          simp only [oadd, ostored]
          exact ih c (by omega) (hs q c hc).2 rs
      rw [step 0, step 1, step 2, step 3, stored_eq, (hst hl).1, childrenStored]
      simp [List.append_assoc]

theorem childList_eq (n : QTNode) :
    n.childList = [n.child 0, n.child 1, n.child 2, n.child 3] := by
  cases n; rfl

theorem mem_childList_iff (n : QTNode) (c : QTNode) :
    some c ∈ n.childList ↔ ∃ q, q < 4 ∧ n.child q = some c := by
  rw [childList_eq]
  simp only [List.mem_cons, List.not_mem_nil, or_false]
  constructor
  · rintro (h | h | h | h)
    · exact ⟨0, by omega, h.symm⟩
    · exact ⟨1, by omega, h.symm⟩
    · exact ⟨2, by omega, h.symm⟩
    · exact ⟨3, by omega, h.symm⟩
  · rintro ⟨q, hq, h⟩
    match q, hq with
    | 0, _ => exact Or.inl h.symm
    | 1, _ => exact Or.inr (Or.inl h.symm)
    | 2, _ => exact Or.inr (Or.inr (Or.inl h.symm))
    | 3, _ => exact Or.inr (Or.inr (Or.inr h.symm))

/-- What one pass over a stem's child slots produces: the queue gains the
PARTIAL children (still well-formed, points in their regions), and, as a
set, results-plus-queued-matches gains exactly the in-rectangle points of
the scanned children. -/
theorem scanChildren_spec (cap : Nat) (minXY maxXY : Point) :
    ∀ (l : List (Option QTNode)) (results : List Point),
      (∀ c, some c ∈ l → wf cap c = true ∧ AllIn c) →
      (∀ n' ∈ (scanChildren minXY maxXY l results).2, wf cap n' = true ∧ AllIn n') ∧
      ∀ x, (x ∈ (scanChildren minXY maxXY l results).1 ∨
          ∃ n' ∈ (scanChildren minXY maxXY l results).2,
            x ∈ n'.stored ∧ point_in_region x minXY maxXY = true) ↔
        (x ∈ results ∨
          ∃ c, some c ∈ l ∧ x ∈ c.stored ∧ point_in_region x minXY maxXY = true) := by
  intro l
  induction l with
  | nil =>
    intro results hl
    rw [scanChildren]
    simp
  | cons k rest ih =>
    intro results hl
    cases k with
    | none =>
      rw [scanChildren]
      obtain ⟨g1, g2⟩ := ih results (fun c hc => hl c (List.mem_cons_of_mem _ hc))
      refine ⟨g1, fun x => (g2 x).trans ?_⟩
      simp
    | some c =>
      obtain ⟨hwfc, hallc⟩ := hl c (List.mem_cons_self _ _)
      have hrest : ∀ c', some c' ∈ rest → wf cap c' = true ∧ AllIn c' :=
        fun c' hc => hl c' (List.mem_cons_of_mem _ hc)
      rw [scanChildren]
      rcases status_cases c.center c.size minXY maxXY with h0 | h1 | h2
      · rw [if_neg (by omega), if_neg (by omega)]
        obtain ⟨g1, g2⟩ := ih results hrest
        refine ⟨g1, fun x => (g2 x).trans ?_⟩
        constructor
        · rintro (hx | hx)
          · exact Or.inl hx
          · exact Or.inr (hx.imp fun c' h => ⟨List.mem_cons_of_mem _ h.1, h.2⟩)
        · rintro (hx | ⟨c', hc', hx, hpir⟩)
          · exact Or.inl hx
          · rcases List.mem_cons.1 hc' with he | hc'
            · injection he with he
              subst he
              exact absurd hpir (status_zero_disjoint c'.center c'.size minXY maxXY h0 x
                (hallc x hx))
            · exact Or.inr ⟨c', hc', hx, hpir⟩
      · rw [if_neg (by omega), if_pos h1]
        obtain ⟨g1, g2⟩ := ih results hrest
        constructor
        · intro n' hn'
          rcases List.mem_cons.1 hn' with rfl | hn'
          · exact ⟨hwfc, hallc⟩
          · exact g1 n' hn'
        · intro x
          constructor
          · rintro (hx | ⟨n', hn', hx, hpir⟩)
            · rcases (g2 x).1 (Or.inl hx) with hx' | hx'
              · exact Or.inl hx'
              · exact Or.inr (hx'.imp fun c' h => ⟨List.mem_cons_of_mem _ h.1, h.2⟩)
            · rcases List.mem_cons.1 hn' with rfl | hn'
              · exact Or.inr ⟨n', List.mem_cons_self _ _, hx, hpir⟩
              · rcases (g2 x).1 (Or.inr ⟨n', hn', hx, hpir⟩) with hx' | hx'
                · exact Or.inl hx'
                · exact Or.inr (hx'.imp fun c' h => ⟨List.mem_cons_of_mem _ h.1, h.2⟩)
          · rintro (hx | ⟨c', hc', hx, hpir⟩)
            · rcases (g2 x).2 (Or.inl hx) with hx' | hx'
              · exact Or.inl hx'
              · exact Or.inr (hx'.imp fun n' h => ⟨List.mem_cons_of_mem _ h.1, h.2⟩)
            · rcases List.mem_cons.1 hc' with he | hc'
              · injection he with he
                subst he
                exact Or.inr ⟨c', List.mem_cons_self _ _, hx, hpir⟩
              · rcases (g2 x).2 (Or.inr ⟨c', hc', hx, hpir⟩) with hx' | hx'
                · exact Or.inl hx'
                · exact Or.inr (hx'.imp fun n' h => ⟨List.mem_cons_of_mem _ h.1, h.2⟩)
      · rw [if_pos h2]
        rw [add_all_eq cap c.count c le_rfl hwfc results]
        obtain ⟨g1, g2⟩ := ih (results ++ c.stored) hrest
        refine ⟨g1, fun x => (g2 x).trans ?_⟩
        simp only [List.mem_append]
        constructor
        · rintro ((hx | hx) | hx)
          · exact Or.inl hx
          · exact Or.inr ⟨c, List.mem_cons_self _ _, hx,
              status_two_sub c.center c.size minXY maxXY h2 x (hallc x hx)⟩
          · exact Or.inr (hx.imp fun c' h => ⟨List.mem_cons_of_mem _ h.1, h.2⟩)
        · rintro (hx | ⟨c', hc', hx, hpir⟩)
          · exact Or.inl (Or.inl hx)
          · rcases List.mem_cons.1 hc' with he | hc'
            · injection he with he
              subst he
              exact Or.inl (Or.inr hx)
            · exact Or.inr ⟨c', hc', hx, hpir⟩

theorem rangeSearchLoop_nil (minXY maxXY : Point) (results : List Point) :
    rangeSearchLoop minXY maxXY [] results = results := by
  rw [rangeSearchLoop]

theorem rangeSearchLoop_leaf_two (minXY maxXY : Point) (top : QTNode)
    (rest : List QTNode) (results : List Point) (hl : top.leaf = true)
    (hst : enclosure_status top.center top.size minXY maxXY = 2) :
    rangeSearchLoop minXY maxXY (top :: rest) results =
      rangeSearchLoop minXY maxXY rest (results ++ top.bucket) := by
  rw [rangeSearchLoop]
  simp [hl, hst]

theorem rangeSearchLoop_leaf_one (minXY maxXY : Point) (top : QTNode)
    (rest : List QTNode) (results : List Point) (hl : top.leaf = true)
    (hst : enclosure_status top.center top.size minXY maxXY = 1) :
    rangeSearchLoop minXY maxXY (top :: rest) results =
      rangeSearchLoop minXY maxXY rest
        (results ++ top.bucket.filter fun v => point_in_region v minXY maxXY) := by
  rw [rangeSearchLoop]
  simp [hl, hst]

theorem rangeSearchLoop_leaf_zero (minXY maxXY : Point) (top : QTNode)
    (rest : List QTNode) (results : List Point) (hl : top.leaf = true)
    (hst : enclosure_status top.center top.size minXY maxXY = 0) :
    rangeSearchLoop minXY maxXY (top :: rest) results =
      rangeSearchLoop minXY maxXY rest results := by
  rw [rangeSearchLoop]
  simp [hl, hst]

theorem rangeSearchLoop_stem (minXY maxXY : Point) (top : QTNode)
    (rest : List QTNode) (results : List Point) (hl : top.leaf = false) :
    rangeSearchLoop minXY maxXY (top :: rest) results =
      rangeSearchLoop minXY maxXY
        (rest ++ (scanChildren minXY maxXY top.childList results).2)
        (scanChildren minXY maxXY top.childList results).1 := by
  rw [rangeSearchLoop]
  simp [hl]

theorem qsize_nil_of_le_zero (queue : List QTNode) (h : qsize queue ≤ 0) :
    queue = [] := by
  cases queue with
  | nil => rfl
  | cons top rest =>
    exfalso
    have := count_pos top
    simp only [qsize, List.map_cons, List.sum_cons] at h
    omega

/-- The queue invariant of the search loop: the final result set is the
accumulated results plus the in-rectangle points under the queued nodes. -/
theorem rangeSearchLoop_spec (cap : Nat) (minXY maxXY : Point) :
    ∀ b (queue : List QTNode) (results : List Point), qsize queue ≤ b →
      (∀ n ∈ queue, wf cap n = true ∧ AllIn n) →
      ∀ x, x ∈ rangeSearchLoop minXY maxXY queue results ↔
        x ∈ results ∨
          ∃ n ∈ queue, x ∈ n.stored ∧ point_in_region x minXY maxXY = true := by
  intro b
  induction b with
  | zero =>
    intro queue results hq hinv x
    rw [qsize_nil_of_le_zero queue hq, rangeSearchLoop_nil]
    simp
  | succ b ih =>
    intro queue results hq hinv x
    cases queue with
    | nil =>
      rw [rangeSearchLoop_nil]
      simp
    | cons top rest =>
      obtain ⟨hwft, hallt⟩ := hinv top (List.mem_cons_self _ _)
      have hrest : ∀ n ∈ rest, wf cap n = true ∧ AllIn n :=
        fun n hn => hinv n (List.mem_cons_of_mem _ hn)
      have hqtop : 0 < top.count := count_pos top
      have hqrest : qsize rest ≤ b := by
        simp only [qsize, List.map_cons, List.sum_cons] at hq
        simp only [qsize]
        omega
      cases hl : top.leaf with
      | true =>
        have hstb : top.stored = top.bucket := stored_of_leaf cap top hwft hl
        rcases status_cases top.center top.size minXY maxXY with h0 | h1 | h2
        · rw [rangeSearchLoop_leaf_zero minXY maxXY top rest results hl h0]
          rw [ih rest results hqrest hrest x]
          constructor
          · exact fun h => h.imp_right fun ⟨n, hn, hx⟩ => ⟨n, List.mem_cons_of_mem _ hn, hx⟩
          · rintro (hx | ⟨n, hn, hx, hpir⟩)
            · exact Or.inl hx
            · rcases List.mem_cons.1 hn with rfl | hn
              · exact absurd hpir (status_zero_disjoint n.center n.size minXY maxXY h0 x
                  (hallt x hx))
              · exact Or.inr ⟨n, hn, hx, hpir⟩
        · rw [rangeSearchLoop_leaf_one minXY maxXY top rest results hl h1]
          rw [ih rest _ hqrest hrest x]
          simp only [List.mem_append, List.mem_filter]
          constructor
          · rintro ((hx | ⟨hx, hpir⟩) | ⟨n, hn, hx⟩)
            · exact Or.inl hx
            · exact Or.inr ⟨top, List.mem_cons_self _ _, by rw [hstb]; exact hx, hpir⟩
            · exact Or.inr ⟨n, List.mem_cons_of_mem _ hn, hx⟩
          · rintro (hx | ⟨n, hn, hx, hpir⟩)
            · exact Or.inl (Or.inl hx)
            · rcases List.mem_cons.1 hn with rfl | hn
              · exact Or.inl (Or.inr ⟨by rw [hstb] at hx; exact hx, hpir⟩)
              · exact Or.inr ⟨n, hn, hx, hpir⟩
        · rw [rangeSearchLoop_leaf_two minXY maxXY top rest results hl h2]
          rw [ih rest _ hqrest hrest x]
          simp only [List.mem_append]
          constructor
          · rintro ((hx | hx) | ⟨n, hn, hx⟩)
            · exact Or.inl hx
            · refine Or.inr ⟨top, List.mem_cons_self _ _, by rw [hstb]; exact hx, ?_⟩
              exact status_two_sub top.center top.size minXY maxXY h2 x
                (hallt x (by rw [hstb]; exact hx))
            · exact Or.inr ⟨n, List.mem_cons_of_mem _ hn, hx⟩
          · rintro (hx | ⟨n, hn, hx, hpir⟩)
            · exact Or.inl (Or.inl hx)
            · rcases List.mem_cons.1 hn with rfl | hn
              · exact Or.inl (Or.inr (by rw [hstb] at hx; exact hx))
              · exact Or.inr ⟨n, hn, hx, hpir⟩
      | false =>
        rw [rangeSearchLoop_stem minXY maxXY top rest results hl]
        have hchildren : ∀ c, some c ∈ top.childList → wf cap c = true ∧ AllIn c := by
          intro c hc
          obtain ⟨q, hq4, hcq⟩ := (mem_childList_iff top c).1 hc
          exact ⟨(wf_slots cap top hwft q c hcq).2, allIn_child cap top c q hwft hallt hcq⟩
        obtain ⟨g1, g2⟩ := scanChildren_spec cap minXY maxXY top.childList results hchildren
        have hqscan : qsize (rest ++ (scanChildren minXY maxXY top.childList results).2) ≤ b := by
          have h1 := scanChildren_qsize minXY maxXY top.childList results
          have h2 := count_eq_one_add top
          simp only [qsize, List.map_append, List.sum_append] at *
          simp only [qsize, List.map_cons, List.sum_cons] at hq
          omega
        have hinv2 : ∀ n ∈ rest ++ (scanChildren minXY maxXY top.childList results).2,
            wf cap n = true ∧ AllIn n := by
          intro n hn
          rcases List.mem_append.1 hn with hn | hn
          · exact hrest n hn
          · exact g1 n hn
        rw [ih _ _ hqscan hinv2 x]
        have htop : ∀ x, (x ∈ top.stored ∧ point_in_region x minXY maxXY = true) ↔
            ∃ c, some c ∈ top.childList ∧ x ∈ c.stored ∧
              point_in_region x minXY maxXY = true := by
          intro y
          obtain ⟨hb, -, -⟩ := ((wf_iff_acc cap top).1 hwft).2.2.1 hl
          constructor
          · rintro ⟨hy, hpir⟩
            rw [mem_stored_iff, hb] at hy
            simp only [List.not_mem_nil, false_or] at hy
            obtain ⟨q, c, hq4, hcq, hyc⟩ := (mem_childrenStored_iff top y).1 hy
            exact ⟨c, (mem_childList_iff top c).2 ⟨q, hq4, hcq⟩, hyc, hpir⟩
          · rintro ⟨c, hc, hyc, hpir⟩
            obtain ⟨q, hq4, hcq⟩ := (mem_childList_iff top c).1 hc
            exact ⟨mem_stored_of_child top q c y hcq hyc, hpir⟩
        constructor
        · rintro (hx | ⟨n, hn, hx, hpir⟩)
          · rcases (g2 x).1 (Or.inl hx) with hx' | hx'
            · exact Or.inl hx'
            · exact Or.inr ⟨top, List.mem_cons_self _ _, (htop x).2 hx'⟩
          · rcases List.mem_append.1 hn with hn | hn
            · exact Or.inr ⟨n, List.mem_cons_of_mem _ hn, hx, hpir⟩
            · rcases (g2 x).1 (Or.inr ⟨n, hn, hx, hpir⟩) with hx' | hx'
              · exact Or.inl hx'
              · exact Or.inr ⟨top, List.mem_cons_self _ _, (htop x).2 hx'⟩
        · rintro (hx | ⟨n, hn, hx, hpir⟩)
          · rcases (g2 x).2 (Or.inl hx) with hx' | hx'
            · exact Or.inl hx'
            · obtain ⟨n', hn', hx', hpir'⟩ := hx'
              exact Or.inr ⟨n', List.mem_append.2 (Or.inr hn'), hx', hpir'⟩
          · rcases List.mem_cons.1 hn with rfl | hn
            · rcases (g2 x).2 (Or.inr ((htop x).1 ⟨hx, hpir⟩)) with hx' | hx'
              · exact Or.inl hx'
              · obtain ⟨n', hn', hx', hpir'⟩ := hx'
                exact Or.inr ⟨n', List.mem_append.2 (Or.inr hn'), hx', hpir'⟩
            · exact Or.inr ⟨n, List.mem_append.2 (Or.inl hn), hx, hpir⟩

/-- A complete run of `range_search` on a well-formed tree whose points
all lie inside its region returns exactly the stored points inside the
query rectangle. -/
theorem range_search_spec (cap : Nat) (t : QTNode) (minXY maxXY : Point)
    (hwf : wf cap t = true) (hall : AllIn t) :
    ∀ x, x ∈ range_search t (minXY, maxXY) ↔
      x ∈ t.stored ∧ point_in_region x minXY maxXY = true := by
  intro x
  unfold range_search
  rw [rangeSearchLoop_spec cap minXY maxXY (qsize [t]) [t] [] le_rfl
    (by intro n hn; rcases List.mem_cons.1 hn with rfl | hn; exacts [⟨hwf, hall⟩, by cases hn]) x]
  simp

/-! ## The QuadTree wrapper -/

/-- `QuadTree`: the root node plus the fixed bucket capacity. -/
structure QuadTree where
  root : QTNode
  max_bucket_size : Nat

/-- `QuadTree.__init__(region, bucketSize)` (the source default is 16). -/
def QuadTree.init (region : Point × Point) (bucketSize : Nat) : QuadTree :=
  ⟨emptyNode (center_size region).1 (center_size region).2, bucketSize⟩

/-! ## The claims -/

/-- **C8.** The quadrant-routing function sends a point on a center line
to the upper half of that axis: the returned index is ≥ 2 exactly when
`center.x ≤ p.x` (right half) and odd exactly when `center.y ≤ p.y`
(top half); a point equal to the center routes to quadrant 3
(upper right). -/
theorem quadrant_tie_break (ce p : Point) :
    (2 ≤ quadrant ce p ↔ ce.x ≤ p.x) ∧
    (quadrant ce p % 2 = 1 ↔ ce.y ≤ p.y) ∧
    quadrant ce ce = 3 := by
  refine ⟨?_, ?_, ?_⟩
  · unfold quadrant
    by_cases hx : ce.x ≤ p.x <;> simp [hx, ge_iff_le] <;> split <;> omega
  · unfold quadrant
    by_cases hy : ce.y ≤ p.y <;> simp [hy, ge_iff_le] <;> split <;> omega
  · unfold quadrant
    simp

/-- **C2.** Over any tree built from an empty root by completed `add`
calls (and `remove` calls), no leaf bucket ever exceeds the capacity. -/
theorem capacity_invariant (cap : Nat) (P : Point → Prop) (ce sz : Point)
    (t : QTNode) (h : Reaches cap P (emptyNode ce sz) t) :
    ∀ m ∈ t.preorder, m.leaf = true → m.bucket.length ≤ cap := by
  intro m hm hl
  have hwf := reaches_wf cap P _ t h (wf_emptyNode cap ce sz)
  have hwfm := wf_of_mem_preorder cap t.count t le_rfl hwf m hm
  exact (((wf_iff_acc cap m).1 hwfm).2.1 hl).1

theorem capacity_invariant_chain :
    Reaches 4 (fun _ => True) (emptyNode ⟨0, 0⟩ ⟨1024, 1024⟩)
      (QTNode.mk ⟨0, 0⟩ ⟨1024, 1024⟩ [⟨205, 205⟩, ⟨1, 1⟩] true none none none none) :=
  @Reaches.add _ _ _ _ _ ⟨1, 1⟩ 5
    (@Reaches.add _ _ _ _ _ ⟨205, 205⟩ 5 Reaches.refl trivial rfl) trivial rfl

theorem capacity_invariant_witness :
    (QTNode.mk ⟨0, 0⟩ ⟨1024, 1024⟩ [⟨205, 205⟩, ⟨1, 1⟩] true
      none none none none).bucket.length ≤ 4 :=
  capacity_invariant 4 (fun _ => True) ⟨0, 0⟩ ⟨1024, 1024⟩ _
    capacity_invariant_chain _ (self_mem_preorder _) rfl

/-- **C9.** After every complete operation, every stem node has an empty
bucket and at least one present child, and every leaf node has all four
child slots absent. -/
theorem stem_leaf_structure (cap : Nat) (P : Point → Prop) (ce sz : Point)
    (t : QTNode) (h : Reaches cap P (emptyNode ce sz) t) :
    ∀ m ∈ t.preorder,
      (m.leaf = false → m.bucket = [] ∧ ∃ q, q < 4 ∧ (m.child q).isSome = true) ∧
      (m.leaf = true → ∀ q, m.child q = none) := by
  intro m hm
  have hwf := reaches_wf cap P _ t h (wf_emptyNode cap ce sz)
  have hwfm := wf_of_mem_preorder cap t.count t le_rfl hwf m hm
  obtain ⟨-, hlf, hst, -⟩ := (wf_iff_acc cap m).1 hwfm
  constructor
  · intro hl
    obtain ⟨hb, hex, -⟩ := hst hl
    exact ⟨hb, hex⟩
  · intro hl
    exact (hlf hl).2

theorem stem_leaf_structure_chain :
    Reaches 1 (fun _ => True) (emptyNode ⟨0, 0⟩ ⟨512, 512⟩)
      (QTNode.mk ⟨0, 0⟩ ⟨512, 512⟩ [] false
        (some (QTNode.mk ⟨-256, -256⟩ ⟨256, 256⟩ [⟨-1, -1⟩] true none none none none))
        none none
        (some (QTNode.mk ⟨256, 256⟩ ⟨256, 256⟩ [⟨1, 1⟩] true none none none none))) :=
  @Reaches.add _ _ _ _ _ ⟨-1, -1⟩ 5
    (@Reaches.add _ _ _ _ (QTNode.mk ⟨0, 0⟩ ⟨512, 512⟩ [⟨1, 1⟩] true none none none none) ⟨1, 1⟩ 5 Reaches.refl trivial rfl) trivial
    (by with_unfolding_all rfl)

theorem stem_leaf_structure_witness :
    (QTNode.mk ⟨0, 0⟩ ⟨512, 512⟩ [] false
      (some (QTNode.mk ⟨-256, -256⟩ ⟨256, 256⟩ [⟨-1, -1⟩] true none none none none))
      none none
      (some (QTNode.mk ⟨256, 256⟩ ⟨256, 256⟩ [⟨1, 1⟩] true none none none none))).bucket = [] :=
  ((stem_leaf_structure 1 (fun _ => True) ⟨0, 0⟩ ⟨512, 512⟩ _
    stem_leaf_structure_chain _ (self_mem_preorder _)).1 rfl).1

/-- **C3.** If a reachable tree stores no points (in particular after
successful removals of every previously added point), the root has
collapsed to a leaf with an empty bucket. -/
theorem full_collapse (cap : Nat) (P : Point → Prop) (ce sz : Point)
    (t : QTNode) (h : Reaches cap P (emptyNode ce sz) t)
    (hempty : t.stored = []) : t.leaf = true ∧ t.bucket = [] := by
  have hwf := reaches_wf cap P _ t h (wf_emptyNode cap ce sz)
  obtain ⟨-, -, hst, -⟩ := (wf_iff_acc cap t).1 hwf
  have hb : t.bucket = [] := by
    have := stored_eq t
    rw [hempty] at this
    exact (List.append_eq_nil.1 this.symm).1
  cases hl : t.leaf with
  | true => exact ⟨rfl, hb⟩
  | false => exact absurd hempty (hst hl).2.2

theorem full_collapse_step1 :
    removePoint 1 ⟨1, 1⟩
      (QTNode.mk ⟨0, 0⟩ ⟨512, 512⟩ [⟨1, 1⟩] true none none none none) =
      some (emptyNode ⟨0, 0⟩ ⟨512, 512⟩) := by
  rw [removePoint_leaf_mem 1 ⟨1, 1⟩
    (QTNode.mk ⟨0, 0⟩ ⟨512, 512⟩ [⟨1, 1⟩] true none none none none) rfl (by decide)]
  rfl

theorem full_collapse_chain :
    Reaches 1 (fun _ => True) (emptyNode ⟨0, 0⟩ ⟨512, 512⟩)
      (emptyNode ⟨0, 0⟩ ⟨512, 512⟩) :=
  Reaches.rem
    (@Reaches.add _ _ _ _ _ ⟨1, 1⟩ 5 Reaches.refl trivial rfl)
    full_collapse_step1

theorem full_collapse_witness :
    (emptyNode ⟨0, 0⟩ ⟨512, 512⟩).leaf = true ∧
    (emptyNode ⟨0, 0⟩ ⟨512, 512⟩).bucket = [] :=
  full_collapse 1 (fun _ => True) ⟨0, 0⟩ ⟨512, 512⟩ _ full_collapse_chain rfl

/-- **C4.** Reachable trees store no point twice (across buckets or
within one), and a completed re-insertion of an already-stored point
leaves the stored set unchanged. -/
theorem quadtree_set_semantics (cap : Nat) (P : Point → Prop) (ce sz : Point)
    (t : QTNode) (h : Reaches cap P (emptyNode ce sz) t) :
    t.stored.Nodup ∧
    ∀ v fuel t', v ∈ t.stored → insertPoint cap fuel v t = some t' →
      ∀ x, x ∈ t'.stored ↔ x ∈ t.stored := by
  have hwf := reaches_wf cap P _ t h (wf_emptyNode cap ce sz)
  refine ⟨wf_stored_nodup cap t hwf, ?_⟩
  intro v fuel t' hv hins x
  obtain ⟨-, -, hm⟩ := insertPoint_effect cap fuel v t t' hins
  rw [hm x]
  constructor
  · rintro (hx | rfl)
    · exact hx
    · exact hv
  · exact Or.inl

/-- The tree of the C4 scenario: capacity 4, region
`[(-512,-512),(512,512)]`, after adding (205,205) twice and then
(1,1), (2,2), (3,3), (4,4); the sixth add splits the root. -/
def scenarioTree : QTNode :=
  QTNode.mk ⟨0, 0⟩ ⟨1024, 1024⟩ [] false none none none
    (some (QTNode.mk ⟨512, 512⟩ ⟨512, 512⟩ [] false
      (some (QTNode.mk ⟨256, 256⟩ ⟨256, 256⟩ [] false
        (some (QTNode.mk ⟨128, 128⟩ ⟨128, 128⟩ [] false
          (some (QTNode.mk ⟨64, 64⟩ ⟨64, 64⟩ [⟨1, 1⟩, ⟨2, 2⟩, ⟨3, 3⟩, ⟨4, 4⟩]
            true none none none none))
          none none
          (some (QTNode.mk ⟨192, 192⟩ ⟨64, 64⟩ [⟨205, 205⟩] true none none none none))))
        none none none))
      none none none))

theorem scenario_chain :
    Reaches 4 (fun _ => True) (emptyNode ⟨0, 0⟩ ⟨1024, 1024⟩) scenarioTree :=
  @Reaches.add _ _ _ _ (scenarioTree) ⟨4, 4⟩ 20
    (@Reaches.add _ _ _ _ (QTNode.mk ⟨0, 0⟩ ⟨1024, 1024⟩ [⟨205, 205⟩, ⟨1, 1⟩, ⟨2, 2⟩, ⟨3, 3⟩]
        true none none none none) ⟨3, 3⟩ 20
      (@Reaches.add _ _ _ _ (QTNode.mk ⟨0, 0⟩ ⟨1024, 1024⟩ [⟨205, 205⟩, ⟨1, 1⟩, ⟨2, 2⟩]
          true none none none none) ⟨2, 2⟩ 20
        (@Reaches.add _ _ _ _ (QTNode.mk ⟨0, 0⟩ ⟨1024, 1024⟩ [⟨205, 205⟩, ⟨1, 1⟩]
            true none none none none) ⟨1, 1⟩ 20
          (@Reaches.add _ _ _ _ (QTNode.mk ⟨0, 0⟩ ⟨1024, 1024⟩ [⟨205, 205⟩]
              true none none none none) ⟨205, 205⟩ 20
            (@Reaches.add _ _ _ _ (QTNode.mk ⟨0, 0⟩ ⟨1024, 1024⟩ [⟨205, 205⟩]
                true none none none none) ⟨205, 205⟩ 20
              Reaches.refl trivial rfl)
            trivial rfl)
          trivial rfl)
        trivial rfl)
      trivial rfl)
    trivial (by with_unfolding_all rfl)

theorem quadtree_set_semantics_witness :
    scenarioTree.stored.Nodup ∧ scenarioTree.stored.length = 5 :=
  ⟨(quadtree_set_semantics 4 (fun _ => True) ⟨0, 0⟩ ⟨1024, 1024⟩ scenarioTree
      scenario_chain).1, by decide⟩

/-- **C10.** Any completed `add` of any point — also one outside the
root's region — makes an immediately following `contains` return true. -/
theorem add_then_contains (cap : Nat) (P : Point → Prop) (ce sz : Point)
    (t : QTNode) (h : Reaches cap P (emptyNode ce sz) t)
    (v : Point) (fuel : Nat) (t' : QTNode)
    (hins : insertPoint cap fuel v t = some t') :
    containsPoint v t' = true := by
  have hwf := reaches_wf cap P _ t h (wf_emptyNode cap ce sz)
  have hwf2 := insertPoint_wf cap fuel v t t' hwf hins
  obtain ⟨-, -, hm⟩ := insertPoint_effect cap fuel v t t' hins
  rw [containsPoint_iff_stored cap t'.count t' le_rfl hwf2 v]
  exact (hm v).2 (Or.inr rfl)

theorem add_then_contains_witness :
    containsPoint ⟨1000, 1000⟩
      (QTNode.mk ⟨0, 0⟩ ⟨512, 512⟩ [⟨1000, 1000⟩] true none none none none) = true :=
  add_then_contains 16 (fun _ => True) ⟨0, 0⟩ ⟨512, 512⟩ _ Reaches.refl
    ⟨1000, 1000⟩ 1 _ rfl

/-- **C6.** `remove` returns false exactly when the `contains`-style
descent hits a missing child slot or a leaf whose bucket lacks the point
(the model then returns no new tree: the state is unchanged);
otherwise it returns true and the new tree stores exactly the old
points minus the removed one. -/
theorem remove_contract (cap : Nat) (P : Point → Prop) (ce sz : Point)
    (t : QTNode) (h : Reaches cap P (emptyNode ce sz) t) (v : Point) :
    (removePoint cap v t = none ↔ containsPoint v t = false) ∧
    ∀ t', removePoint cap v t = some t' →
      ∀ x, x ∈ t'.stored ↔ x ∈ t.stored ∧ x ≠ v := by
  have hwf := reaches_wf cap P _ t h (wf_emptyNode cap ce sz)
  refine ⟨removePoint_none_iff cap t.count t le_rfl v, ?_⟩
  intro t' h'
  exact (removePoint_spec cap t.count t le_rfl hwf v t' h').2.2.2

theorem remove_contract_witness :
    removePoint 16 ⟨2, 2⟩
      (QTNode.mk ⟨0, 0⟩ ⟨512, 512⟩ [⟨1, 1⟩] true none none none none) = none :=
  (remove_contract 16 (fun _ => True) ⟨0, 0⟩ ⟨512, 512⟩ _
    (@Reaches.add _ _ _ _ (QTNode.mk ⟨0, 0⟩ ⟨512, 512⟩ [⟨1, 1⟩] true none none none none) ⟨1, 1⟩ 2 Reaches.refl trivial rfl) ⟨2, 2⟩).1.mpr
    (by rw [containsPoint_leaf ⟨2, 2⟩
      (QTNode.mk ⟨0, 0⟩ ⟨512, 512⟩ [⟨1, 1⟩] true none none none none) rfl]; decide)

/-- The full leaf of the C5 counterexample (capacity 2). -/
def fullLeafTree : QTNode :=
  QTNode.mk ⟨0, 0⟩ ⟨512, 512⟩ [⟨1, 1⟩, ⟨1000, 1000⟩] true none none none none

/-- What re-adding the stored point (1,1) to `fullLeafTree` produces:
the leaf splits even though the point is already present. -/
def fullLeafSplit : QTNode :=
  QTNode.mk ⟨0, 0⟩ ⟨512, 512⟩ [] false none none none
    (some (QTNode.mk ⟨256, 256⟩ ⟨256, 256⟩ [⟨1, 1⟩, ⟨1000, 1000⟩] true none none none none))

/-- **C5, counterexample.** On a tree with capacity 2 holding the points
(1,1) and (1000,1000) in its (full) root bucket, `add((1,1))` completes
and restructures the tree (the root becomes a stem), although (1,1) is
already stored — so `add` of a stored point is *not* always a no-op. -/
theorem add_noop_counterexample :
    Reaches 2 (fun _ => True) (emptyNode ⟨0, 0⟩ ⟨512, 512⟩) fullLeafTree ∧
    containsPoint ⟨1, 1⟩ fullLeafTree = true ∧
    insertPoint 2 20 ⟨1, 1⟩ fullLeafTree = some fullLeafSplit ∧
    fullLeafSplit ≠ fullLeafTree := by
  refine ⟨?_, ?_, ?_, ?_⟩
  · exact @Reaches.add _ _ _ _ (fullLeafTree) ⟨1000, 1000⟩ 5
      (@Reaches.add _ _ _ _ (QTNode.mk ⟨0, 0⟩ ⟨512, 512⟩ [⟨1, 1⟩] true none none none none) ⟨1, 1⟩ 5 Reaches.refl trivial rfl)
      trivial rfl
  · rw [containsPoint_leaf ⟨1, 1⟩ fullLeafTree rfl]
    decide
  · with_unfolding_all rfl
  · intro heq
    have hle := congrArg QTNode.leaf heq
    simp [fullLeafSplit, fullLeafTree, QTNode.leaf] at hle

theorem fittingChild_of_child (n : QTNode) (v : Point) (c : QTNode)
    (hc : n.child (quadrant n.center v) = some c) : fittingChild n v = c := by
  unfold fittingChild
  rw [hc]

/-- **C5, amended.** `add(p)` for an already-stored point `p` is a no-op
*provided the leaf that the descent reaches has room in its bucket*:
any completed `add` then returns the tree unchanged.  (When that leaf is
full, the leaf splits instead — see the counterexample — though the
stored point set is unchanged.) -/
theorem add_noop_amended (cap : Nat) :
    ∀ (fuel : Nat) (v : Point) (n L n' : QTNode),
      findLeaf v n = some L → v ∈ L.bucket → L.bucket.length < cap →
      insertPoint cap fuel v n = some n' → n' = n := by
  intro fuel
  induction fuel with
  | zero =>
    intro v n L n' h1 h2 h3 h4
    rw [show insertPoint cap 0 v n = none from rfl] at h4
    cases h4
  | succ fuel ih =>
    intro v n L n' h1 h2 h3 h4
    cases hl : n.leaf with
    | true =>
      rw [findLeaf_leaf v n hl] at h1
      injection h1 with h1
      subst h1
      rw [insertPoint_leaf_dup cap fuel v n hl h3 h2] at h4
      injection h4 with h4
      exact h4.symm
    | false =>
      cases hc : n.child (quadrant n.center v) with
      | none =>
        rw [findLeaf_stem_none v n hl hc] at h1
        cases h1
      | some c =>
        rw [findLeaf_stem_some v n c hl hc] at h1
        rw [insertPoint_stem cap fuel v n hl] at h4
        obtain ⟨c2, hp, rfl⟩ := (insertChild_some_iff cap fuel v n _).1 h4
        rw [fittingChild_of_child n v c hc] at hp
        rw [ih v c L c2 h1 h2 h3 hp, ← hc, setChild_self]

theorem add_noop_amended_witness :
    insertPoint 16 2 ⟨1, 1⟩
      (QTNode.mk ⟨0, 0⟩ ⟨512, 512⟩ [⟨1, 1⟩] true none none none none) =
      some (QTNode.mk ⟨0, 0⟩ ⟨512, 512⟩ [⟨1, 1⟩] true none none none none) :=
  (add_noop_amended 16 2 ⟨1, 1⟩
      (QTNode.mk ⟨0, 0⟩ ⟨512, 512⟩ [⟨1, 1⟩] true none none none none)
      (QTNode.mk ⟨0, 0⟩ ⟨512, 512⟩ [⟨1, 1⟩] true none none none none)
      (QTNode.mk ⟨0, 0⟩ ⟨512, 512⟩ [⟨1, 1⟩] true none none none none)
      (findLeaf_leaf ⟨1, 1⟩ _ rfl) (by decide) (by decide) rfl) ▸ rfl

/-- From a fresh root, if every added point lies in the root's region,
every stored point of every reachable tree lies in the tree's region. -/
theorem reaches_allIn (cap : Nat) (P : Point → Prop) (ce sz : Point) (t : QTNode)
    (h : Reaches cap P (emptyNode ce sz) t)
    (hP : ∀ v, P v → point_in_region v (emptyNode ce sz).region.1
      (emptyNode ce sz).region.2 = true) :
    AllIn t := by
  intro p hp
  have hin := reaches_stored cap P _ t h (wf_emptyNode cap ce sz)
    (fun x => point_in_region x (emptyNode ce sz).region.1
      (emptyNode ce sz).region.2 = true)
    (by rw [stored_emptyNode]; intro x hx; cases hx) hP p hp
  have hreg : t.region = (emptyNode ce sz).region := by
    obtain ⟨h1, h2⟩ := reaches_region cap P _ t h
    unfold QTNode.region
    rw [h1, h2]
  rw [hreg]
  exact hin

/-- The tree of the C7 counterexample: root region
`[(-512,-512),(512,512)]`, holding the out-of-region point (1000,1000)
in the root bucket. -/
def outOfRegionTree : QTNode :=
  QTNode.mk ⟨0, 0⟩ ⟨512, 512⟩ [⟨1000, 1000⟩] true none none none none

/-- **C7, counterexample.** A tree over region `[(-256,-256),(256,256)]`
(the constructor makes the root the square of half-size 512 around the
origin) accepts `add((1000,1000))` and stores the point in the root's
bucket, although (1000,1000) is outside the root node's region — so
bucket points do *not* always lie in their node's region when points
outside the root region are added. -/
theorem region_containment_counterexample :
    (QuadTree.init (⟨⟨-256, -256⟩, ⟨256, 256⟩⟩ : Point × Point) 16).root =
      emptyNode ⟨0, 0⟩ ⟨512, 512⟩ ∧
    insertPoint 16 1 ⟨1000, 1000⟩ (emptyNode ⟨0, 0⟩ ⟨512, 512⟩) =
      some outOfRegionTree ∧
    (⟨1000, 1000⟩ : Point) ∈ outOfRegionTree.bucket ∧
    point_in_region ⟨1000, 1000⟩ outOfRegionTree.region.1
      outOfRegionTree.region.2 = false := by
  refine ⟨?_, rfl, by decide, by with_unfolding_all decide⟩
  have hclog : Int.clog 2 ((256 : ℚ) - -256) = 9 := by
    norm_num
    simp [Nat.clog]
  unfold QuadTree.init center_size next_pow2 emptyNode
  simp only [hclog]
  norm_num

/-- **C7, amended.** If every added point lies within the root's region,
then after every complete operation every point stored in any node's
bucket lies within that node's region. -/
theorem region_containment_amended (cap : Nat) (P : Point → Prop)
    (ce sz : Point) (t : QTNode) (h : Reaches cap P (emptyNode ce sz) t)
    (hP : ∀ v, P v → point_in_region v (emptyNode ce sz).region.1
      (emptyNode ce sz).region.2 = true) :
    ∀ m ∈ t.preorder, ∀ p ∈ m.bucket,
      point_in_region p m.region.1 m.region.2 = true := by
  intro m hm p hp
  have hwf := reaches_wf cap P _ t h (wf_emptyNode cap ce sz)
  have hall := reaches_allIn cap P ce sz t h hP
  have hallm := bucket_in_node_region cap t.count t le_rfl hwf hall m hm
  exact hallm p ((mem_stored_iff m p).2 (Or.inl hp))

theorem region_containment_amended_witness :
    point_in_region ⟨1, 1⟩
      (QTNode.mk ⟨0, 0⟩ ⟨512, 512⟩ [⟨1, 1⟩] true none none none none).region.1
      (QTNode.mk ⟨0, 0⟩ ⟨512, 512⟩ [⟨1, 1⟩] true none none none none).region.2 = true :=
  region_containment_amended 16
    (fun v => point_in_region v (emptyNode ⟨0, 0⟩ ⟨512, 512⟩).region.1
      (emptyNode ⟨0, 0⟩ ⟨512, 512⟩).region.2 = true)
    ⟨0, 0⟩ ⟨512, 512⟩ _
    (@Reaches.add _ _ _ _ (QTNode.mk ⟨0, 0⟩ ⟨512, 512⟩ [⟨1, 1⟩] true none none none none) ⟨1, 1⟩ 2 Reaches.refl (by with_unfolding_all decide) rfl)
    (fun v hv => hv) _ (self_mem_preorder _) ⟨1, 1⟩ (by decide)

/-- The tree of the C1 counterexample: root region
`[(-512,-512),(512,512)]`, holding the out-of-region point (1000,1000). -/
def outOfRegionSearchTree : QTNode :=
  QTNode.mk ⟨0, 0⟩ ⟨512, 512⟩ [⟨1000, 1000⟩] true none none none none

/-- **C1, counterexample.** On a tree over region
`[(-256,-256),(256,256)]` reached by the single add of the out-of-region
point (1000,1000), `range_search` over `[(-512,-512),(512,512)]` returns
(1000,1000) although it fails the inclusive bound test — the returned
set is *not* the brute-force filter of the stored points. -/
theorem range_search_counterexample :
    (QuadTree.init (⟨⟨-256, -256⟩, ⟨256, 256⟩⟩ : Point × Point) 16).root =
      emptyNode ⟨0, 0⟩ ⟨512, 512⟩ ∧
    insertPoint 16 1 ⟨1000, 1000⟩ (emptyNode ⟨0, 0⟩ ⟨512, 512⟩) =
      some outOfRegionSearchTree ∧
    range_search outOfRegionSearchTree (⟨-512, -512⟩, ⟨512, 512⟩) = [⟨1000, 1000⟩] ∧
    point_in_region ⟨1000, 1000⟩ ⟨-512, -512⟩ ⟨512, 512⟩ = false := by
  refine ⟨?_, rfl, ?_, by with_unfolding_all decide⟩
  · have hclog : Int.clog 2 ((256 : ℚ) - -256) = 9 := by
      norm_num
      simp [Nat.clog]
    unfold QuadTree.init center_size next_pow2 emptyNode
    simp only [hclog]
    norm_num
  · unfold range_search
    rw [rangeSearchLoop_leaf_two ⟨-512, -512⟩ ⟨512, 512⟩ outOfRegionSearchTree [] []
      rfl (by with_unfolding_all decide), rangeSearchLoop_nil]
    rfl

/-- **C1, amended.** Provided every added point lies within the root's
region, `range_search` over any rectangle with `rect_min ≤ rect_max` per
axis returns exactly the currently-stored points satisfying the
inclusive bound test on all four bounds. -/
theorem range_search_exact (cap : Nat) (P : Point → Prop) (ce sz : Point)
    (t : QTNode) (h : Reaches cap P (emptyNode ce sz) t)
    (hP : ∀ v, P v → point_in_region v (emptyNode ce sz).region.1
      (emptyNode ce sz).region.2 = true)
    (minXY maxXY : Point) (hmx : minXY.x ≤ maxXY.x) (hmy : minXY.y ≤ maxXY.y) :
    ∀ x, x ∈ range_search t (minXY, maxXY) ↔
      x ∈ t.stored ∧ point_in_region x minXY maxXY = true := by
  have hwf := reaches_wf cap P _ t h (wf_emptyNode cap ce sz)
  exact range_search_spec cap t minXY maxXY hwf (reaches_allIn cap P ce sz t h hP)

theorem range_search_exact_witness :
    (⟨1, 1⟩ : Point) ∈ range_search
      (QTNode.mk ⟨0, 0⟩ ⟨512, 512⟩ [⟨1, 1⟩] true none none none none) (⟨0, 0⟩, ⟨2, 2⟩) ↔
    (⟨1, 1⟩ : Point) ∈
      (QTNode.mk ⟨0, 0⟩ ⟨512, 512⟩ [⟨1, 1⟩] true none none none none).stored ∧
    point_in_region ⟨1, 1⟩ ⟨0, 0⟩ ⟨2, 2⟩ = true :=
  range_search_exact 16
    (fun v => point_in_region v (emptyNode ⟨0, 0⟩ ⟨512, 512⟩).region.1
      (emptyNode ⟨0, 0⟩ ⟨512, 512⟩).region.2 = true)
    ⟨0, 0⟩ ⟨512, 512⟩ _
    (@Reaches.add _ _ _ _ (QTNode.mk ⟨0, 0⟩ ⟨512, 512⟩ [⟨1, 1⟩] true none none none none) ⟨1, 1⟩ 2 Reaches.refl (by with_unfolding_all decide) rfl)
    (fun v hv => hv) ⟨0, 0⟩ ⟨2, 2⟩ (by norm_num) (by norm_num) ⟨1, 1⟩

end Quadtree
